import Mathlib

/-!
Shallow embedding of the ECS core of the multiplay_minesweeper repository:
entity id generation and the entity manager (src/entities/entity_id_generator.rs,
src/entities/entity.rs, src/entities/entity_manager.rs), the resource manager
(src/resources/resource_manager.rs), the World facade (src/ecs/world.rs), and
the two system registries (src/system/system_registry.rs and
src/systems/optimized/system_registry.rs).

Modelling conventions: Rust HashMaps are association lists, HashSets are lists
kept duplicate-free by a membership test on insert, u64/usize counters are Nat,
i32 priorities are Int (only compared, never overflowed), Rust type identities
(TypeId) are opaque Nat tags, component/resource payloads are an arbitrary type
parameter V. Vec push/pop at the back is mirrored by cons/head at the front
(the same LIFO discipline). Where a Rust function recurses on a graph, the
embedding takes an explicit fuel argument; the top-level entry points pass a
fuel large enough that it is never exhausted.
-/

namespace ECS

variable {K V : Type}

/-- Association-list model of a Rust HashMap lookup (`map.get(&k)`). -/
def aget [DecidableEq K] : List (K × V) → K → Option V
  | [], _ => none
  | p :: rest, k => if p.1 = k then some p.2 else aget rest k

/-- Association-list model of HashMap insert: replaces the value in place when
the key is present, otherwise prepends the new binding. -/
def aset [DecidableEq K] : List (K × V) → K → V → List (K × V)
  | [], k, v => [(k, v)]
  | p :: rest, k, v => if p.1 = k then (k, v) :: rest else p :: aset rest k v

/-- Association-list model of HashMap remove (the mapping part only). -/
def adel [DecidableEq K] : List (K × V) → K → List (K × V)
  | [], _ => []
  | p :: rest, k => if p.1 = k then adel rest k else p :: adel rest k

/-- Keys of an association list. -/
def keys (l : List (K × V)) : List K := l.map Prod.fst

/-- HashSet insert. -/
def sinsert [DecidableEq K] (s : List K) (x : K) : List K :=
  if x ∈ s then s else x :: s

/-- HashSet remove. -/
def sremove [DecidableEq K] : List K → K → List K
  | [], _ => []
  | y :: rest, x => if y = x then sremove rest x else y :: sremove rest x

/-- Position of the first occurrence of x in l (equals l.length when absent). -/
def listPos : List Nat → Nat → Nat
  | [], _ => 0
  | a :: t, x => if a = x then 0 else listPos t x + 1

/-- Entity id generator state (src/entities/entity_id_generator.rs).
recycled_ids is most-recent-first: Rust pushes to and pops from the back of
its Vec, a LIFO discipline mirrored here by the list head. -/
structure EntityIdGenerator where
  next_id : Nat
  recycled_ids : List Nat
  use_recycled : Bool
deriving Repr, DecidableEq

/-- EntityIdGenerator::new - the counter starts at 1, 0 is reserved invalid. -/
def EntityIdGenerator.new (use_recycled : Bool) : EntityIdGenerator :=
  ⟨1, [], use_recycled⟩

/-- EntityIdGenerator::generate - pop a recycled id when recycling is on and
one is available, otherwise hand out the fresh counter value. -/
def EntityIdGenerator.generate (g : EntityIdGenerator) : Nat × EntityIdGenerator :=
  if g.use_recycled then
    match g.recycled_ids with
    | id :: rest => (id, { g with recycled_ids := rest })
    | [] => (g.next_id, { g with next_id := g.next_id + 1 })
  else
    (g.next_id, { g with next_id := g.next_id + 1 })

/-- EntityIdGenerator::recycle - record the id for reuse only when recycling
is enabled. -/
def EntityIdGenerator.recycle (g : EntityIdGenerator) (id : Nat) : EntityIdGenerator :=
  if g.use_recycled then { g with recycled_ids := id :: g.recycled_ids } else g

/-- Entity (src/entities/entity.rs): an id, a TypeId-keyed component map and a
list of string tags. -/
structure Entity (V : Type) where
  id : Nat
  components : List (Nat × V)
  tags : List String
deriving Repr, DecidableEq

/-- Entity::new. -/
def Entity.new (id : Nat) : Entity V := ⟨id, [], []⟩

/-- Entity::add_component - insert or overwrite the slot of that type. -/
def Entity.add_component (e : Entity V) (t : Nat) (v : V) : Entity V :=
  { e with components := aset e.components t v }

/-- Entity::get_component. -/
def Entity.get_component (e : Entity V) (t : Nat) : Option V :=
  aget e.components t

/-- Entity::has_component. -/
def Entity.has_component (e : Entity V) (t : Nat) : Bool :=
  (aget e.components t).isSome

/-- Entity::remove_component - returns the removed value and the new entity. -/
def Entity.remove_component (e : Entity V) (t : Nat) : Option V × Entity V :=
  (aget e.components t, { e with components := adel e.components t })

/-- Component type ids present on the entity (keys of the component map). -/
def Entity.get_component_types (e : Entity V) : List Nat :=
  keys e.components

/-- Entity::add_tag - push the tag unless already present. -/
def Entity.add_tag (e : Entity V) (tag : String) : Entity V :=
  if tag ∈ e.tags then e else { e with tags := e.tags ++ [tag] }

/-- EntityManager (src/entities/entity_manager.rs). The component factory is
modelled as an optional map from a component type id to the default value its
registered creator produces. -/
structure EntityManager (V : Type) where
  entities : List (Nat × Entity V)
  id_generator : EntityIdGenerator
  pending_removal : List Nat
  tags_to_entities : List (String × List Nat)
  component_indices : List (Nat × List Nat)
  factory : Option (List (Nat × V))
deriving Repr, DecidableEq

/-- EntityManager::new / Default: recycling generator, empty stores, a fresh
(empty) component factory present. -/
def EntityManager.new (V : Type) : EntityManager V :=
  ⟨[], EntityIdGenerator.new true, [], [], [], some []⟩

/-- EntityManager::create_entity. -/
def EntityManager.create_entity (em : EntityManager V) : Nat × EntityManager V :=
  let p := em.id_generator.generate
  (p.1, { em with id_generator := p.2,
                  entities := aset em.entities p.1 (Entity.new p.1) })

/-- EntityManager::remove_entity - deferred removal just marks the id. -/
def EntityManager.remove_entity (em : EntityManager V) (id : Nat) : EntityManager V :=
  { em with pending_removal := sinsert em.pending_removal id }

/-- EntityManager::remove_entity_immediate - drop the entity, clean its tags
out of the tag map (dropping empty tag sets), scrub the id from every
component index, recycle the id. -/
def EntityManager.remove_entity_immediate (em : EntityManager V) (id : Nat) :
    Option (Entity V) × EntityManager V :=
  match aget em.entities id with
  | none => (none, em)
  | some e =>
    let tags2 := e.tags.foldl (fun m tag =>
      match aget m tag with
      | none => m
      | some s =>
        let s2 := sremove s id
        if s2 = [] then adel m tag else aset m tag s2) em.tags_to_entities
    (some e,
      { em with entities := adel em.entities id,
                tags_to_entities := tags2,
                component_indices := em.component_indices.map (fun p => (p.1, sremove p.2 id)),
                id_generator := em.id_generator.recycle id })

/-- EntityManager::flush_removals - immediately remove every pending id (the
HashSet iteration order is unspecified in Rust; the model walks the list),
then clear the pending set. -/
def EntityManager.flush_removals (em : EntityManager V) : EntityManager V :=
  let em1 := em.pending_removal.foldl (fun m id => (m.remove_entity_immediate id).2) em
  { em1 with pending_removal := [] }

/-- EntityManager::get_entity. -/
def EntityManager.get_entity (em : EntityManager V) (id : Nat) : Option (Entity V) :=
  aget em.entities id

/-- EntityManager::get_component - value of the type-t component of the
entity, or none when the entity is inactive or the component absent. -/
def EntityManager.get_component (em : EntityManager V) (entity_id t : Nat) : Option V :=
  match aget em.entities entity_id with
  | some e => e.get_component t
  | none => none

/-- EntityManager::has_component. -/
def EntityManager.has_component (em : EntityManager V) (entity_id t : Nat) : Bool :=
  match aget em.entities entity_id with
  | some e => e.has_component t
  | none => false

/-- EntityManager::entity_has_component_by_type_id. -/
def EntityManager.entity_has_component_by_type_id (em : EntityManager V)
    (entity_id type_id : Nat) : Bool :=
  match aget em.entities entity_id with
  | some e => type_id ∈ e.get_component_types
  | none => false

/-- EntityManager::update_component_index - add the entity to the per-type
index set. -/
def EntityManager.update_component_index (em : EntityManager V) (t entity_id : Nat) :
    EntityManager V :=
  let s := (aget em.component_indices t).getD []
  { em with component_indices := aset em.component_indices t (sinsert s entity_id) }

/-- Inner loop of EntityManager::add_component: create registered defaults for
the missing dependency component types, stopping at the first unregistered one
(mutations made before the failure persist, as with &mut self in Rust). The
call site in the source uses Entity::add_component_boxed, which is absent from
entity.rs; it is modelled as the type-id keyed insert its call site requires. -/
def EntityManager.addMissing (factory : List (Nat × V)) (entity_id : Nat) :
    List Nat → EntityManager V → EntityManager V × Option String
  | [], em => (em, none)
  | d :: rest, em =>
    match aget factory d with
    | none => (em, some "依存コンポーネントがファクトリーに登録されていません")
    | some dv =>
      match aget em.entities entity_id with
      | none => (em, some "エンティティが見つかりません")
      | some e =>
        EntityManager.addMissing factory entity_id rest
          { em with entities := aset em.entities entity_id (e.add_component d dv) }

/-- Dependency-resolution stage of EntityManager::add_component: compute the
missing co-component types and, when there are any, require the factory and
create their registered defaults. -/
def EntityManager.resolveDeps (compDeps : Nat → List Nat) (em : EntityManager V)
    (entity_id t : Nat) : EntityManager V × Option String :=
  if (compDeps t).filter (fun d => ¬ em.entity_has_component_by_type_id entity_id d) = []
  then (em, none)
  else
    match em.factory with
    | none => (em, some "コンポーネントファクトリーが設定されていません")
    | some f =>
      EntityManager.addMissing f entity_id
        ((compDeps t).filter (fun d => ¬ em.entity_has_component_by_type_id entity_id d)) em

/-- EntityManager::add_component. compDeps gives the co-component type ids a
component of a given type declares (Component::dependencies, empty by
default). Trait hooks on_init/on_added have empty default bodies and are
modelled as no-ops. Returns the updated manager and an error when one
occurred (the Rust receiver keeps partial mutations even on error). -/
def EntityManager.add_component (compDeps : Nat → List Nat) (em : EntityManager V)
    (entity_id t : Nat) (v : V) : EntityManager V × Option String :=
  if (aget em.entities entity_id).isNone then
    (em, some "エンティティが存在しません")
  else
    match EntityManager.resolveDeps compDeps em entity_id t with
    | (em2, some e) => (em2, some e)
    | (em2, none) =>
      match aget em2.entities entity_id with
      | none => (em2, some "エンティティが見つかりません")
      | some e =>
        (EntityManager.update_component_index
          { em2 with entities := aset em2.entities entity_id (e.add_component t v) }
          t entity_id, none)

/-- ResourceManager (src/resources/resource_manager.rs): singleton values
keyed by type identity. -/
structure ResourceManager (V : Type) where
  resources : List (Nat × V)
deriving Repr, DecidableEq

/-- ResourceManager::new. -/
def ResourceManager.new (V : Type) : ResourceManager V := ⟨[]⟩

/-- ResourceManager::insert - store or replace the singleton of that type. -/
def ResourceManager.insert (rm : ResourceManager V) (t : Nat) (v : V) : ResourceManager V :=
  ⟨aset rm.resources t v⟩

/-- ResourceManager::get (get_mut reads the same entry). -/
def ResourceManager.get (rm : ResourceManager V) (t : Nat) : Option V :=
  aget rm.resources t

/-- ResourceManager::contains. -/
def ResourceManager.contains (rm : ResourceManager V) (t : Nat) : Bool :=
  (aget rm.resources t).isSome

/-- ResourceManager::remove. -/
def ResourceManager.remove (rm : ResourceManager V) (t : Nat) :
    Option V × ResourceManager V :=
  (aget rm.resources t, ⟨adel rm.resources t⟩)

/-- ResourceManager::get_multi - two shared references; no type-equality
check, fails only when a lookup fails. -/
def ResourceManager.get_multi (rm : ResourceManager V) (a b : Nat) : Option (V × V) :=
  match rm.get a with
  | none => none
  | some x =>
    match rm.get b with
    | none => none
    | some y => some (x, y)

/-- ResourceManager::get_multi_mut - refuses identical types up front, then
performs the two lookups. -/
def ResourceManager.get_multi_mut (rm : ResourceManager V) (a b : Nat) : Option (V × V) :=
  if a = b then none
  else
    match rm.get a with
    | none => none
    | some x =>
      match rm.get b with
      | none => none
      | some y => some (x, y)

/-- Phases of the basic registry (src/system/system_registry.rs). -/
inductive SystemPhase
  | Startup
  | Input
  | Update
  | Render
  | Cleanup
deriving Repr, DecidableEq

/-- Static data of one registered system: phase, priority (i32, lower runs
first) and the declared dependency ids. -/
structure SystemDecl where
  phase : SystemPhase
  priority : Int
  deps : List Nat
deriving Repr, DecidableEq

/-- Basic SystemRegistry state (src/system/system_registry.rs): the systems
map, the id counter, the per-phase (id, priority) lists in push order, and the
dependency map. The execution-order cache is recomputed whenever dirty, so it
is modelled as computed on demand. -/
structure SystemRegistry where
  systems : List (Nat × SystemDecl)
  next_id : Nat
  phase_systems : List (SystemPhase × List (Nat × Int))
  dependencies : List (Nat × List Nat)
deriving Repr, DecidableEq

/-- SystemRegistry::new. -/
def SystemRegistry.new : SystemRegistry := ⟨[], 0, [], []⟩

/-- SystemRegistry::add_system - assign the next id, append to the phase list,
record the dependencies, store the system. -/
def SystemRegistry.add_system (r : SystemRegistry) (s : SystemDecl) :
    Nat × SystemRegistry :=
  let id := r.next_id
  let cur := (aget r.phase_systems s.phase).getD []
  (id, { systems := aset r.systems id s
         next_id := id + 1
         phase_systems := aset r.phase_systems s.phase (cur ++ [(id, s.priority)])
         dependencies := aset r.dependencies id s.deps })

/-- Registry built by a sequence of add_system calls on a fresh registry. -/
def SystemRegistry.ofDecls (decls : List SystemDecl) : SystemRegistry :=
  decls.foldl (fun r d => (r.add_system d).2) SystemRegistry.new

/-- Dependency list of an id (empty when the id has no entry), as read by
SystemRegistry::visit. -/
def SystemRegistry.depsFun (r : SystemRegistry) (id : Nat) : List Nat :=
  (aget r.dependencies id).getD []

/-- State threaded through SystemRegistry::visit: the ids mapped to true in
the visited map, the ids currently mapped to true in temp_mark, and the
accumulated order. -/
structure VisitState where
  visited : List Nat
  temp : List Nat
  sorted : List Nat
deriving Repr, DecidableEq

/-- SystemRegistry::visit (src/system/system_registry.rs lines 199-233):
skip a visited node, silently skip a temp-marked node (the source comment
notes a circular dependency is an error but simply ignores it here), else
mark, recurse into the dependencies, unmark, record as visited and push. -/
def visit (deps : Nat → List Nat) : Nat → Nat → VisitState → VisitState
  | 0, _, s => s
  | fuel+1, id, s =>
    if id ∈ s.visited then s
    else if id ∈ s.temp then s
    else
      let s2 := (deps id).foldl (fun st d => visit deps fuel d st)
        ⟨s.visited, id :: s.temp, s.sorted⟩
      ⟨id :: s2.visited, s2.temp.erase id, s2.sorted ++ [id]⟩

/-- Insert one (id, priority) pair into an already priority-sorted list,
after every strictly smaller priority and before equal ones met later - the
unique stable placement, matching Rust's stable sort_by_key. -/
def insertByPriority (x : Nat × Int) : List (Nat × Int) → List (Nat × Int)
  | [] => [x]
  | y :: ys => if y.2 < x.2 then y :: insertByPriority x ys else x :: y :: ys

/-- Stable sort of a phase's (id, priority) list by priority ascending,
matching Vec::sort_by_key (a stable sort is unique, so any stable algorithm
gives the same list). -/
def sortByPriority : List (Nat × Int) → List (Nat × Int)
  | [] => []
  | x :: xs => insertByPriority x (sortByPriority xs)

/-- Every id the registry's maps mention: dependency-map keys, all ids inside
dependency lists, and the per-phase ids. A visit run only ever touches these,
so their count bounds the recursion depth. -/
def SystemRegistry.allIds (r : SystemRegistry) : List Nat :=
  keys r.dependencies ++ (r.dependencies.map Prod.snd).flatten
    ++ ((r.phase_systems.map Prod.snd).flatten.map Prod.fst)

/-- SystemRegistry::update_execution_order for one phase: sort the phase's
systems by priority, then run the depth-first visits in that order. The fuel
exceeds the number of ids in play, so it is never exhausted. -/
def SystemRegistry.execution_order (r : SystemRegistry) (phase : SystemPhase) : List Nat :=
  let ps := (aget r.phase_systems phase).getD []
  (List.foldl (fun st p => visit r.depsFun (r.allIds.length + 1) p.1 st)
    ⟨[], [], []⟩ (sortByPriority ps)).sorted

/-- SystemRegistry::run_phase - run the cached order, skipping ids with no
entry in the systems map; the trace lists the systems actually run. -/
def SystemRegistry.run_phase_trace (r : SystemRegistry) (phase : SystemPhase) : List Nat :=
  (r.execution_order phase).filter (fun id => (aget r.systems id).isSome)

/-- SystemRegistry::run_all_phases - Input, Update, Render, Cleanup in that
fixed order (Startup excluded). -/
def SystemRegistry.run_all_phases_trace (r : SystemRegistry) : List Nat :=
  r.run_phase_trace .Input ++ r.run_phase_trace .Update
    ++ r.run_phase_trace .Render ++ r.run_phase_trace .Cleanup

/-- SystemRegistry::run_startup - the Startup phase only. -/
def SystemRegistry.run_startup_trace (r : SystemRegistry) : List Nat :=
  r.run_phase_trace .Startup

/-- Phase of a registered system id. -/
def SystemRegistry.phase_of (r : SystemRegistry) (id : Nat) : Option SystemPhase :=
  (aget r.systems id).map (fun s => s.phase)

/-- World (src/ecs/world.rs): the composition root owning the three parts. -/
structure World (V : Type) where
  entity_manager : EntityManager V
  resource_manager : ResourceManager V
  system_registry : SystemRegistry
deriving Repr, DecidableEq

/-- World::new / Default. -/
def World.new (V : Type) : World V :=
  ⟨EntityManager.new V, ResourceManager.new V, SystemRegistry.new⟩

/-- World::create_entity. -/
def World.create_entity (w : World V) : Nat × World V :=
  let p := w.entity_manager.create_entity
  (p.1, { w with entity_manager := p.2 })

/-- World::add_component - delegates and discards the error with let _ = ...,
keeping whatever state the manager reached. -/
def World.add_component (compDeps : Nat → List Nat) (w : World V)
    (entity t : Nat) (v : V) : World V :=
  { w with entity_manager :=
      (w.entity_manager.add_component compDeps entity t v).1 }

/-- World::get_component (src/ecs/world.rs lines 212-215): the body is a stub
that returns None unconditionally, under a TODO comment claiming
EntityManager lacks a get_component method. -/
def World.get_component (_w : World V) (_entity _t : Nat) : Option V :=
  none

/-- Operations on one EntityManager exercised by the id-uniqueness and
recycling claims. -/
inductive EMOp
  | create
  | removeEntity (id : Nat)
  | removeImmediate (id : Nat)
  | flush
deriving Repr, DecidableEq

/-- One operation applied to the manager (return values discarded). -/
def EMstep (op : EMOp) (em : EntityManager V) : EntityManager V :=
  match op with
  | .create => em.create_entity.2
  | .removeEntity id => em.remove_entity id
  | .removeImmediate id => (em.remove_entity_immediate id).2
  | .flush => em.flush_removals

/-- A sequence of operations applied left to right. -/
def EMrun (ops : List EMOp) (em : EntityManager V) : EntityManager V :=
  ops.foldl (fun m op => EMstep op m) em

/-- State invariant of the manager and its generator: active ids and recycled
ids are duplicate-free, everything issued is at least 1 and below the fresh
counter, and no id is simultaneously active and recycled. -/
def INV (em : EntityManager V) : Prop :=
  (keys em.entities).Nodup ∧
  em.id_generator.recycled_ids.Nodup ∧
  1 ≤ em.id_generator.next_id ∧
  (∀ id ∈ keys em.entities, 1 ≤ id ∧ id < em.id_generator.next_id) ∧
  (∀ id ∈ em.id_generator.recycled_ids, 1 ≤ id ∧ id < em.id_generator.next_id) ∧
  (∀ id ∈ keys em.entities, id ∉ em.id_generator.recycled_ids)

/-- Dependency relation read off a dependency function: depRel a b holds when
a is a declared dependency of b (a must run before b). -/
def depRel (deps : Nat → List Nat) (a b : Nat) : Prop := a ∈ deps b

/-- Reach relation: reachRel a b when b is a declared dependency of a, the
direction the depth-first visit follows. -/
def reachRel (deps : Nat → List Nat) (a b : Nat) : Prop := b ∈ deps a

/-- Acyclicity of the dependency graph: no id transitively depends on
itself. -/
def Acyclic (deps : Nat → List Nat) : Prop :=
  ∀ x, ¬ Relation.TransGen (depRel deps) x x

/-- A list is topologically ordered for deps when every listed id comes after
each of its direct dependencies, which are also listed. -/
def Topo (deps : Nat → List Nat) (l : List Nat) : Prop :=
  ∀ x ∈ l, ∀ d ∈ deps x, d ∈ l ∧ listPos l d < listPos l x

/-- Number of ids of univ neither temp-marked nor visited: the measure that
shrinks when the depth-first visit descends. -/
def visitMeasure (univ : List Nat) (s : VisitState) : Nat :=
  (univ.filter (fun x => x ∉ s.temp ∧ x ∉ s.visited)).length

/-- Numeric rank of a phase in the frame pipeline. -/
def phaseIdx : SystemPhase → Nat
  | .Startup => 0
  | .Input => 1
  | .Update => 2
  | .Render => 3
  | .Cleanup => 4

/-- The phase labels along the run_all_phases trace never decrease - the
phase-separation property the spec asserts for every registration. -/
def PhaseSeparated (r : SystemRegistry) : Prop :=
  List.Pairwise (fun a b => phaseIdx a ≤ phaseIdx b)
    ((r.run_all_phases_trace).filterMap r.phase_of)

/-- Components that declare no co-component requirement. -/
def compDepsNone : Nat → List Nat := fun _ => []

/-- One system of the optimized registry slice
(src/systems/optimized/system_registry.rs): its unique name and the names of
the systems it declares as dependencies. Systems declaring no resource access
are modelled, for which infer_dependencies_from_resources adds nothing and
dependency_cache holds exactly the declared names. -/
structure OptSystem where
  name : String
  deps : List String
deriving Repr, DecidableEq

/-- State of the optimized registry's topological sort. -/
structure OptVisitState where
  visited : List Nat
  temp : List Nat
  result : List Nat
deriving Repr, DecidableEq

/-- system_name_map lookup: registration inserts name -> index, so a later
duplicate name overwrites; the last matching index wins. -/
def nameIdx (systems : List OptSystem) (n : String) : Option Nat :=
  systems.enum.foldl (fun acc p => if p.2.name = n then some p.1 else acc) none

/-- Name of the system at an index. -/
def nameOf (systems : List OptSystem) (index : Nat) : String :=
  ((systems.get? index).map (fun s => s.name)).getD ""

/-- Optimized SystemRegistry::visit (lines 307-351): a temp-marked revisit is
a hard error naming the system, a visited node is skipped, an unregistered
dependency name is an error, otherwise recurse and push. -/
def visitOpt (systems : List OptSystem) : Nat → Nat → OptVisitState →
    Except String OptVisitState
  | 0, _, st => Except.ok st
  | fuel+1, index, st =>
    if index ∈ st.temp then
      Except.error ("システム依存関係の循環が検出されました: " ++ nameOf systems index)
    else if index ∈ st.visited then Except.ok st
    else
      let depNames := ((systems.get? index).map (fun s => s.deps)).getD []
      let folded := depNames.foldl
        (fun acc d =>
          match acc with
          | Except.error e => Except.error e
          | Except.ok s =>
            match nameIdx systems d with
            | none =>
              Except.error ("未登録の依存システム: " ++ nameOf systems index ++ " -> " ++ d)
            | some j => visitOpt systems fuel j s)
        (Except.ok ⟨st.visited, index :: st.temp, st.result⟩)
      match folded with
      | Except.error e => Except.error e
      | Except.ok st2 =>
        Except.ok ⟨index :: st2.visited, st2.temp.erase index, st2.result ++ [index]⟩

/-- Optimized SystemRegistry::resolve_dependencies (lines 209-241): visit
every index in registration order, propagating the first error; on success
the execution order is the accumulated result. -/
def resolveOpt (systems : List OptSystem) : Except String (List Nat) :=
  let fuel := systems.length + 1
  let final := (List.range systems.length).foldl
    (fun acc i =>
      match acc with
      | Except.error e => Except.error e
      | Except.ok st => if i ∈ st.visited then Except.ok st else visitOpt systems fuel i st)
    (Except.ok (⟨[], [], []⟩ : OptVisitState))
  match final with
  | Except.error e => Except.error e
  | Except.ok st => Except.ok st.result

/-- Optimized SystemRegistry::update_all: resolve first and run nothing when
resolution fails; on success every (active, runnable) system runs in order -
all systems are modelled active and runnable, so the trace is the order. -/
def updateAllOpt (systems : List OptSystem) : Except String (List Nat) :=
  match resolveOpt systems with
  | Except.error e => Except.error e
  | Except.ok order => Except.ok order

/-- Basic registry holding a two-cycle: system 0 depends on 1 and system 1
depends on 0, both in the Update phase. -/
def rC1cex : SystemRegistry :=
  SystemRegistry.ofDecls [⟨.Update, 0, [1]⟩, ⟨.Update, 0, [0]⟩]

/-- The same two-cycle in the optimized registry. -/
def oC1cex : List OptSystem := [⟨"a", ["b"]⟩, ⟨"b", ["a"]⟩]

/-- Acyclic registry: system 1 depends on system 0, both Update phase. -/
def rC3w : SystemRegistry :=
  SystemRegistry.ofDecls [⟨.Update, 0, []⟩, ⟨.Update, 5, [0]⟩]

/-- Registry with a cross-phase dependency: Input-phase system 1 depends on
Update-phase system 0. -/
def rC6cex : SystemRegistry :=
  SystemRegistry.ofDecls [⟨.Update, 0, []⟩, ⟨.Input, 0, [0]⟩]

/-- Registry whose dependencies stay within their phase: Input system 0,
Update systems 1 and 2 with 1 depending on 2. -/
def rC6w : SystemRegistry :=
  SystemRegistry.ofDecls [⟨.Input, 0, []⟩, ⟨.Update, 5, [2]⟩, ⟨.Update, 0, []⟩]

/-- Priority counterexample registry, all Update phase: system 0 has priority
10 and no dependencies, system 1 priority 5 and no dependencies, system 2
priority 0 and depends on 0. -/
def rC9cex : SystemRegistry :=
  SystemRegistry.ofDecls [⟨.Update, 10, []⟩, ⟨.Update, 5, []⟩, ⟨.Update, 0, [0]⟩]

/-- Dependency-free two-system Update registry with distinct priorities. -/
def rC9w : SystemRegistry :=
  SystemRegistry.ofDecls [⟨.Update, 3, []⟩, ⟨.Update, 1, []⟩]

/-- Manager with recycling on and one active entity (id 1). -/
def emC5a : EntityManager Nat := ((EntityManager.new Nat).create_entity).2

/-- Fresh manager whose generator has recycling disabled. -/
def emC5b : EntityManager Nat :=
  ⟨[], EntityIdGenerator.new false, [], [], [], some []⟩


/-- Acyclic registry with one Update-phase edge: system 1 depends on 0. -/
def rC9e : SystemRegistry :=
  SystemRegistry.ofDecls [⟨.Update, 0, []⟩, ⟨.Update, 0, [0]⟩]

/-- Manager holding one freshly created entity (id 1), recycling on. -/
def emC8base : EntityManager Nat := ((EntityManager.new Nat).create_entity).2

/-! Helper lemmas about the association-list and set models. -/

theorem aget_cons [DecidableEq K] (p : K × V) (rest : List (K × V)) (k : K) :
    aget (p :: rest) k = if p.1 = k then some p.2 else aget rest k := rfl

theorem keys_nil : keys ([] : List (K × V)) = [] := rfl

theorem keys_cons (p : K × V) (l : List (K × V)) : keys (p :: l) = p.1 :: keys l := rfl

theorem aget_aset_self [DecidableEq K] (l : List (K × V)) (k : K) (v : V) :
    aget (aset l k v) k = some v := by
  induction l with
  | nil => simp [aset, aget]
  | cons p rest ih =>
    by_cases h : p.1 = k
    · simp [aset, h, aget]
    · simp [aset, h, aget_cons, ih]

theorem aget_aset_ne [DecidableEq K] (l : List (K × V)) (k k1 : K) (v : V)
    (h : k1 ≠ k) : aget (aset l k v) k1 = aget l k1 := by
  have hk : ¬ k = k1 := fun e => h e.symm
  induction l with
  | nil => simp [aset, aget, hk]
  | cons p rest ih =>
    by_cases hp : p.1 = k
    · have hp1 : ¬ p.1 = k1 := by rw [hp]; exact hk
      simp [aset, hp, aget_cons, hk, hp1]
    · simp [aset, hp, aget_cons, ih]

theorem aget_adel_self [DecidableEq K] (l : List (K × V)) (k : K) :
    aget (adel l k) k = none := by
  induction l with
  | nil => rfl
  | cons p rest ih =>
    by_cases hp : p.1 = k
    · simpa [adel, hp] using ih
    · simp [adel, hp, aget_cons, ih]

theorem aget_adel_ne [DecidableEq K] (l : List (K × V)) (k k1 : K) (h : k1 ≠ k) :
    aget (adel l k) k1 = aget l k1 := by
  have hk : ¬ k = k1 := fun e => h e.symm
  induction l with
  | nil => rfl
  | cons p rest ih =>
    by_cases hp : p.1 = k
    · have hp1 : ¬ p.1 = k1 := by rw [hp]; exact hk
      simp [adel, hp, aget_cons, hp1, hk, ih]
    · simp [adel, hp, aget_cons, ih]

theorem aget_mem [DecidableEq K] {l : List (K × V)} {k : K} {v : V}
    (h : aget l k = some v) : (k, v) ∈ l := by
  induction l with
  | nil => simp [aget] at h
  | cons p rest ih =>
    rw [aget_cons] at h
    by_cases hp : p.1 = k
    · simp [hp] at h
      have hpv : p = (k, v) := by cases p; simp_all
      rw [hpv] at *
      exact List.mem_cons_self _ _
    · simp [hp] at h
      exact List.mem_cons_of_mem _ (ih h)

theorem aget_none_iff [DecidableEq K] {l : List (K × V)} {k : K} :
    aget l k = none ↔ k ∉ keys l := by
  induction l with
  | nil => simp [aget, keys]
  | cons p rest ih =>
    by_cases hp : p.1 = k
    · simp [aget_cons, hp, keys_cons]
    · have hpk : ¬ k = p.1 := fun e => hp e.symm
      simp [aget_cons, hp, keys_cons, ih, hpk]

theorem mem_keys_of_aget [DecidableEq K] {l : List (K × V)} {k : K} {v : V}
    (h : aget l k = some v) : k ∈ keys l := by
  by_contra hk
  rw [← aget_none_iff] at hk
  simp [hk] at h

theorem mem_keys_aset [DecidableEq K] {l : List (K × V)} {k x : K} {v : V} :
    x ∈ keys (aset l k v) ↔ x = k ∨ x ∈ keys l := by
  induction l with
  | nil => simp [aset, keys]
  | cons p rest ih =>
    by_cases hp : p.1 = k
    · simp only [aset, hp, if_true, keys_cons, List.mem_cons]
      tauto
    · simp [aset, hp, keys_cons, ih]
      tauto

theorem keys_aset_nodup [DecidableEq K] {l : List (K × V)} {k : K} {v : V}
    (h : (keys l).Nodup) : (keys (aset l k v)).Nodup := by
  induction l with
  | nil => simp [aset, keys]
  | cons p rest ih =>
    rw [keys_cons, List.nodup_cons] at h
    by_cases hp : p.1 = k
    · simp only [aset, hp, if_true, keys_cons, List.nodup_cons]
      rw [← hp]
      exact h
    · simp only [aset, hp, if_false, keys_cons, List.nodup_cons]
      refine ⟨fun hk => ?_, ih h.2⟩
      rcases mem_keys_aset.1 hk with h1 | h1
      · exact hp h1
      · exact h.1 h1

theorem adel_sublist [DecidableEq K] (l : List (K × V)) (k : K) :
    (adel l k).Sublist l := by
  induction l with
  | nil => exact List.Sublist.refl _
  | cons p rest ih =>
    by_cases hp : p.1 = k
    · simp only [adel, hp, if_true]
      exact ih.cons p
    · simp only [adel, hp, if_false]
      exact ih.cons₂ p

theorem keys_adel_nodup [DecidableEq K] {l : List (K × V)} {k : K}
    (h : (keys l).Nodup) : (keys (adel l k)).Nodup :=
  ((adel_sublist l k).map Prod.fst).nodup h

theorem mem_keys_adel [DecidableEq K] {l : List (K × V)} {k x : K}
    (h : x ∈ keys (adel l k)) : x ∈ keys l := by
  rcases List.mem_map.1 h with ⟨p, hp, he⟩
  exact he ▸ List.mem_map_of_mem Prod.fst ((adel_sublist l k).mem hp)

theorem mem_sinsert [DecidableEq K] {s : List K} {x y : K} :
    y ∈ sinsert s x ↔ y = x ∨ y ∈ s := by
  unfold sinsert
  by_cases h : x ∈ s
  · simp only [h, if_true]
    exact ⟨Or.inr, fun h1 => h1.elim (fun e => e ▸ h) id⟩
  · simp [h, List.mem_cons]

theorem mem_sremove [DecidableEq K] {s : List K} {x y : K} :
    y ∈ sremove s x ↔ y ∈ s ∧ y ≠ x := by
  induction s with
  | nil => simp [sremove]
  | cons a rest ih =>
    by_cases ha : a = x
    · rw [ha]
      simp [sremove, ih]
      tauto
    · simp [sremove, ha, ih, List.mem_cons]
      constructor
      · rintro (he | hm)
        · exact ⟨Or.inl he, he ▸ ha⟩
        · exact ⟨Or.inr hm.1, hm.2⟩
      · rintro ⟨he | hm, hne⟩
        · exact Or.inl he
        · exact Or.inr ⟨hm, hne⟩

theorem mem_aset [DecidableEq K] {l : List (K × V)} {k : K} {v : V} {p : K × V}
    (h : p ∈ aset l k v) : p = (k, v) ∨ p ∈ l := by
  induction l with
  | nil => simpa [aset] using h
  | cons q rest ih =>
    by_cases hq : q.1 = k
    · simp [aset, hq] at h
      tauto
    · simp only [aset, hq, if_false, List.mem_cons] at h
      rcases h with h | h
      · exact Or.inr (by simp [h])
      · rcases ih h with h1 | h1
        · exact Or.inl h1
        · exact Or.inr (List.mem_cons_of_mem _ h1)

theorem mem_adel [DecidableEq K] {l : List (K × V)} {k : K} {p : K × V}
    (h : p ∈ adel l k) : p ∈ l :=
  (adel_sublist l k).mem h

theorem listPos_lt_length {l : List Nat} {x : Nat} (h : x ∈ l) :
    listPos l x < l.length := by
  induction l with
  | nil => simp at h
  | cons a t ih =>
    by_cases ha : a = x
    · simp [listPos, ha]
    · rcases List.mem_cons.1 h with h1 | h1
      · exact absurd h1.symm ha
      · simpa [listPos, ha] using ih h1

theorem listPos_append_left {l l1 : List Nat} {x : Nat} (h : x ∈ l) :
    listPos (l ++ l1) x = listPos l x := by
  induction l with
  | nil => simp at h
  | cons a t ih =>
    by_cases ha : a = x
    · simp [listPos, ha]
    · rcases List.mem_cons.1 h with h1 | h1
      · exact absurd h1.symm ha
      · simp [listPos, ha, ih h1]

theorem listPos_append_self {l : List Nat} {x : Nat} (h : x ∉ l) :
    listPos (l ++ [x]) x = l.length := by
  induction l with
  | nil => simp [listPos]
  | cons a t ih =>
    simp only [List.mem_cons, not_or] at h
    have ha : ¬ a = x := fun e => h.1 e.symm
    simp [listPos, ha, ih h.2]

/-! Lemmas about the id generator and the entity-manager invariant. -/

theorem generate_cases (g : EntityIdGenerator) :
    (g.generate.1 = g.next_id ∧ g.generate.2 = { g with next_id := g.next_id + 1 }) ∨
    (g.use_recycled = true ∧ ∃ rest, g.recycled_ids = g.generate.1 :: rest ∧
      g.generate.2 = { g with recycled_ids := rest }) := by
  unfold EntityIdGenerator.generate
  by_cases hu : g.use_recycled
  · cases hr : g.recycled_ids with
    | nil => simp [hu, hr]
    | cons a rest => simp [hu, hr]
  · simp [hu]

theorem generate_flag (g : EntityIdGenerator) :
    g.generate.2.use_recycled = g.use_recycled := by
  rcases generate_cases g with ⟨_, h⟩ | ⟨_, _, _, h⟩ <;> rw [h]

theorem generate_next_mono (g : EntityIdGenerator) :
    g.next_id ≤ g.generate.2.next_id := by
  rcases generate_cases g with ⟨_, h⟩ | ⟨_, _, _, h⟩ <;> simp [h]

theorem recycle_next (g : EntityIdGenerator) (id : Nat) :
    (g.recycle id).next_id = g.next_id := by
  unfold EntityIdGenerator.recycle
  split <;> rfl

theorem recycle_flag (g : EntityIdGenerator) (id : Nat) :
    (g.recycle id).use_recycled = g.use_recycled := by
  unfold EntityIdGenerator.recycle
  split <;> rfl

theorem recycle_ids (g : EntityIdGenerator) (id : Nat) :
    (g.recycle id).recycled_ids =
      if g.use_recycled then id :: g.recycled_ids else g.recycled_ids := by
  unfold EntityIdGenerator.recycle
  split <;> simp_all

theorem INV_new (V : Type) : INV (EntityManager.new V) := by
  refine ⟨?_, ?_, ?_, ?_, ?_, ?_⟩
  all_goals simp [EntityManager.new, EntityIdGenerator.new, keys]

theorem create_preserve {em : EntityManager V} (h : INV em) :
    INV em.create_entity.2 ∧ em.create_entity.1 ∉ keys em.entities := by
  obtain ⟨hN, hRN, h1n, hEb, hRb, hDis⟩ := h
  rcases generate_cases em.id_generator with ⟨hid, hg⟩ | ⟨hu, rest, hr, hg⟩
  · have hfresh : em.create_entity.1 ∉ keys em.entities := by
      rw [EntityManager.create_entity, hid]
      intro hmem
      exact absurd (hEb _ hmem).2 (by simp)
    refine ⟨⟨?_, ?_, ?_, ?_, ?_, ?_⟩, hfresh⟩ <;>
      simp only [EntityManager.create_entity, hg, hid]
    · exact keys_aset_nodup hN
    · exact hRN
    · omega
    · intro x hx
      rcases mem_keys_aset.1 hx with hx | hx
      · omega
      · have := hEb _ hx
        omega
    · intro x hx
      have := hRb _ hx
      omega
    · intro x hx
      rcases mem_keys_aset.1 hx with hx | hx
      · subst hx
        intro hc
        exact absurd (hRb _ hc).2 (by simp)
      · exact hDis _ hx
  · have hmemr : em.create_entity.1 ∈ em.id_generator.recycled_ids := by
      rw [EntityManager.create_entity]
      rw [hr]
      exact List.mem_cons_self _ _
    have hfresh : em.create_entity.1 ∉ keys em.entities := fun hc => hDis _ hc hmemr
    have hrn : rest.Nodup ∧ em.create_entity.1 ∉ rest := by
      have := hr ▸ hRN
      rw [List.nodup_cons] at this
      exact ⟨this.2, this.1⟩
    refine ⟨⟨?_, ?_, ?_, ?_, ?_, ?_⟩, hfresh⟩ <;>
      simp only [EntityManager.create_entity, hg]
    · exact keys_aset_nodup hN
    · exact hrn.1
    · exact h1n
    · intro x hx
      rcases mem_keys_aset.1 hx with hx | hx
      · exact hx ▸ hRb _ hmemr
      · exact hEb _ hx
    · intro x hx
      exact hRb _ (hr ▸ List.mem_cons_of_mem _ hx)
    · intro x hx
      rcases mem_keys_aset.1 hx with hx | hx
      · exact hx ▸ hrn.2
      · intro hc
        exact hDis _ hx (hr ▸ List.mem_cons_of_mem _ hc)

theorem removeImmediate_preserve {em : EntityManager V} {id : Nat} (h : INV em) :
    INV (em.remove_entity_immediate id).2 := by
  obtain ⟨hN, hRN, h1n, hEb, hRb, hDis⟩ := h
  unfold EntityManager.remove_entity_immediate
  cases ha : aget em.entities id with
  | none => exact ⟨hN, hRN, h1n, hEb, hRb, hDis⟩
  | some e =>
    have hidk : id ∈ keys em.entities := mem_keys_of_aget ha
    have hidr : id ∉ em.id_generator.recycled_ids := hDis _ hidk
    have hkeyne : ∀ x ∈ keys (adel em.entities id), x ≠ id := by
      intro x hx he
      have : aget (adel em.entities id) id = none := aget_adel_self _ _
      rw [aget_none_iff] at this
      exact this (he ▸ hx)
    refine ⟨?_, ?_, ?_, ?_, ?_, ?_⟩ <;>
      simp only [recycle_next, recycle_ids, recycle_flag]
    · exact keys_adel_nodup hN
    · split
      · exact List.nodup_cons.2 ⟨hidr, hRN⟩
      · exact hRN
    · exact h1n
    · exact fun x hx => hEb _ (mem_keys_adel hx)
    · split
      · intro x hx
        rcases List.mem_cons.1 hx with hx | hx
        · exact hx ▸ hEb _ hidk
        · exact hRb _ hx
      · exact hRb
    · intro x hx
      have hxk := mem_keys_adel hx
      split
      · intro hc
        rcases List.mem_cons.1 hc with hc | hc
        · exact hkeyne _ hx hc
        · exact hDis _ hxk hc
      · exact hDis _ hxk

theorem foldl_removeImmediate_preserve (l : List Nat) {em : EntityManager V}
    (h : INV em) :
    INV (l.foldl (fun m i => (m.remove_entity_immediate i).2) em) := by
  induction l generalizing em with
  | nil => exact h
  | cons j rest ih => exact ih (removeImmediate_preserve h)

theorem INV_fields {em em1 : EntityManager V} (he : em1.entities = em.entities)
    (hg : em1.id_generator = em.id_generator) (h : INV em) : INV em1 := by
  obtain ⟨hN, hRN, h1n, hEb, hRb, hDis⟩ := h
  exact ⟨he ▸ hN, hg ▸ hRN, hg ▸ h1n, hg ▸ he ▸ hEb, hg ▸ hRb, hg ▸ he ▸ hDis⟩

theorem flush_preserve {em : EntityManager V} (h : INV em) :
    INV em.flush_removals :=
  INV_fields rfl rfl (foldl_removeImmediate_preserve em.pending_removal h)

theorem remove_entity_preserve {em : EntityManager V} (id : Nat) (h : INV em) :
    INV (em.remove_entity id) :=
  INV_fields rfl rfl h

theorem EMstep_preserve {em : EntityManager V} (op : EMOp) (h : INV em) :
    INV (EMstep op em) := by
  cases op with
  | create => exact (create_preserve h).1
  | removeEntity id => exact remove_entity_preserve id h
  | removeImmediate id => exact removeImmediate_preserve h
  | flush => exact flush_preserve h

theorem EMrun_preserve (ops : List EMOp) {em : EntityManager V} (h : INV em) :
    INV (EMrun ops em) := by
  induction ops generalizing em with
  | nil => exact h
  | cons op rest ih => exact ih (EMstep_preserve op h)
/-! Behaviour of deferred removal and flushing. -/

theorem removeImmediate_entities_none {em : EntityManager V} {x j : Nat}
    (h : aget em.entities x = none) :
    aget (em.remove_entity_immediate j).2.entities x = none := by
  unfold EntityManager.remove_entity_immediate
  cases ha : aget em.entities j with
  | none => exact h
  | some e =>
    by_cases hx : x = j
    · subst hx
      exact aget_adel_self _ _
    · simp only []
      rw [aget_adel_ne _ _ _ hx]
      exact h

theorem removeImmediate_self_none (em : EntityManager V) (id : Nat) :
    aget (em.remove_entity_immediate id).2.entities id = none := by
  unfold EntityManager.remove_entity_immediate
  cases ha : aget em.entities id with
  | none => exact ha
  | some e => exact aget_adel_self _ _

theorem removeImmediate_other_active {em : EntityManager V} {id j : Nat} {e : Entity V}
    (hne : id ≠ j) (h : aget em.entities id = some e) :
    aget (em.remove_entity_immediate j).2.entities id = some e := by
  unfold EntityManager.remove_entity_immediate
  cases ha : aget em.entities j with
  | none => exact h
  | some e2 =>
    simp only []
    rw [aget_adel_ne _ _ _ hne]
    exact h

theorem removeImmediate_gen_flag (em : EntityManager V) (j : Nat) :
    (em.remove_entity_immediate j).2.id_generator.use_recycled =
      em.id_generator.use_recycled := by
  unfold EntityManager.remove_entity_immediate
  cases aget em.entities j with
  | none => rfl
  | some e => exact recycle_flag _ _

theorem removeImmediate_gen_next (em : EntityManager V) (j : Nat) :
    (em.remove_entity_immediate j).2.id_generator.next_id =
      em.id_generator.next_id := by
  unfold EntityManager.remove_entity_immediate
  cases aget em.entities j with
  | none => rfl
  | some e => exact recycle_next _ _

theorem removeImmediate_recycled_mono {em : EntityManager V} {x : Nat} (j : Nat)
    (h : x ∈ em.id_generator.recycled_ids) :
    x ∈ (em.remove_entity_immediate j).2.id_generator.recycled_ids := by
  unfold EntityManager.remove_entity_immediate
  cases aget em.entities j with
  | none => exact h
  | some e =>
    simp only [recycle_ids]
    split
    · exact List.mem_cons_of_mem _ h
    · exact h

theorem removeImmediate_recycle_self {em : EntityManager V} {id : Nat} {e : Entity V}
    (ha : aget em.entities id = some e)
    (hf : em.id_generator.use_recycled = true) :
    id ∈ (em.remove_entity_immediate id).2.id_generator.recycled_ids := by
  unfold EntityManager.remove_entity_immediate
  rw [ha]
  simp only [recycle_ids, hf, if_true]
  exact List.mem_cons_self _ _

theorem foldl_removeImmediate_none {x : Nat} :
    ∀ (l : List Nat) (em : EntityManager V), aget em.entities x = none →
      aget (l.foldl (fun m i => (m.remove_entity_immediate i).2) em).entities x = none := by
  intro l
  induction l with
  | nil => exact fun em h => h
  | cons j rest ih => exact fun em h => ih _ (removeImmediate_entities_none h)

theorem foldl_removeImmediate_removes {id : Nat} :
    ∀ (l : List Nat) (em : EntityManager V), id ∈ l →
      aget (l.foldl (fun m i => (m.remove_entity_immediate i).2) em).entities id = none := by
  intro l
  induction l with
  | nil => intro em h; simp at h
  | cons j rest ih =>
    intro em h
    by_cases hj : id = j
    · subst hj
      by_cases hr : id ∈ rest
      · exact ih _ hr
      · exact foldl_removeImmediate_none rest _ (removeImmediate_self_none em id)
    · exact ih _ (List.mem_cons.1 h |>.resolve_left hj)

theorem foldl_removeImmediate_recycled_mono {x : Nat} :
    ∀ (l : List Nat) (em : EntityManager V), x ∈ em.id_generator.recycled_ids →
      x ∈ (l.foldl (fun m i => (m.remove_entity_immediate i).2) em).id_generator.recycled_ids := by
  intro l
  induction l with
  | nil => exact fun em h => h
  | cons j rest ih => exact fun em h => ih _ (removeImmediate_recycled_mono j h)

theorem foldl_removeImmediate_recycles {id : Nat} :
    ∀ (l : List Nat) (em : EntityManager V), id ∈ l →
      (∃ e, aget em.entities id = some e) →
      em.id_generator.use_recycled = true →
      id ∈ (l.foldl (fun m i => (m.remove_entity_immediate i).2) em).id_generator.recycled_ids := by
  intro l
  induction l with
  | nil => intro em h; simp at h
  | cons j rest ih =>
    intro em h ⟨e, ha⟩ hf
    by_cases hj : id = j
    · subst hj
      exact foldl_removeImmediate_recycled_mono rest _ (removeImmediate_recycle_self ha hf)
    · exact ih _ (List.mem_cons.1 h |>.resolve_left hj)
        ⟨e, removeImmediate_other_active hj ha⟩
        ((removeImmediate_gen_flag em j) ▸ hf)

theorem flush_removes {em : EntityManager V} {id : Nat}
    (h : id ∈ em.pending_removal) :
    aget em.flush_removals.entities id = none :=
  foldl_removeImmediate_removes em.pending_removal em h

theorem flush_get_component_none {em : EntityManager V} {id : Nat} (t : Nat)
    (h : id ∈ em.pending_removal) :
    em.flush_removals.get_component id t = none := by
  unfold EntityManager.get_component
  rw [flush_removes h]

theorem flush_recycles {em : EntityManager V} {id : Nat} {e : Entity V}
    (h : id ∈ em.pending_removal) (ha : aget em.entities id = some e)
    (hf : em.id_generator.use_recycled = true) :
    id ∈ em.flush_removals.id_generator.recycled_ids :=
  foldl_removeImmediate_recycles em.pending_removal em h ⟨e, ha⟩ hf

theorem removeImmediate_gen_off {em : EntityManager V} (j : Nat)
    (hf : em.id_generator.use_recycled = false) :
    (em.remove_entity_immediate j).2.id_generator = em.id_generator := by
  unfold EntityManager.remove_entity_immediate
  cases aget em.entities j with
  | none => rfl
  | some e =>
    simp only [EntityIdGenerator.recycle, hf]
    rfl

theorem flush_gen_off {em : EntityManager V}
    (hf : em.id_generator.use_recycled = false) :
    em.flush_removals.id_generator = em.id_generator := by
  unfold EntityManager.flush_removals
  simp only []
  generalize em.pending_removal = l
  induction l generalizing em with
  | nil => rfl
  | cons j rest ih =>
    rw [List.foldl_cons]
    rw [@ih ((em.remove_entity_immediate j).2)
      (by rw [removeImmediate_gen_off j hf]; exact hf)]
    exact removeImmediate_gen_off j hf

/-! Flag preservation and counter monotonicity across operation sequences. -/

theorem EMstep_flag (op : EMOp) (em : EntityManager V) :
    (EMstep op em).id_generator.use_recycled = em.id_generator.use_recycled := by
  cases op with
  | create => exact generate_flag _
  | removeEntity id => rfl
  | removeImmediate id => exact removeImmediate_gen_flag em id
  | flush =>
    show (em.flush_removals).id_generator.use_recycled = _
    unfold EntityManager.flush_removals
    simp only []
    generalize em.pending_removal = l
    induction l generalizing em with
    | nil => rfl
    | cons j rest ih =>
      rw [List.foldl_cons, ih]
      exact removeImmediate_gen_flag em j

theorem EMrun_flag (ops : List EMOp) (em : EntityManager V) :
    (EMrun ops em).id_generator.use_recycled = em.id_generator.use_recycled := by
  induction ops generalizing em with
  | nil => rfl
  | cons op rest ih =>
    show (EMrun rest (EMstep op em)).id_generator.use_recycled = _
    rw [ih, EMstep_flag]

theorem EMstep_next_mono (op : EMOp) (em : EntityManager V) :
    em.id_generator.next_id ≤ (EMstep op em).id_generator.next_id := by
  cases op with
  | create => exact generate_next_mono _
  | removeEntity id => exact Nat.le_refl _
  | removeImmediate id => exact Nat.le_of_eq (removeImmediate_gen_next em id).symm
  | flush =>
    show _ ≤ (em.flush_removals).id_generator.next_id
    unfold EntityManager.flush_removals
    simp only []
    generalize em.pending_removal = l
    induction l generalizing em with
    | nil => exact Nat.le_refl _
    | cons j rest ih =>
      rw [List.foldl_cons]
      exact Nat.le_trans (Nat.le_of_eq (removeImmediate_gen_next em j).symm) (ih _)

theorem EMrun_next_mono (ops : List EMOp) (em : EntityManager V) :
    em.id_generator.next_id ≤ (EMrun ops em).id_generator.next_id := by
  induction ops generalizing em with
  | nil => exact Nat.le_refl _
  | cons op rest ih =>
    exact Nat.le_trans (EMstep_next_mono op em) (ih (EMstep op em))

theorem create_off {em : EntityManager V}
    (hf : em.id_generator.use_recycled = false) :
    em.create_entity.1 = em.id_generator.next_id ∧
      em.create_entity.2.id_generator.next_id = em.id_generator.next_id + 1 := by
  unfold EntityManager.create_entity EntityIdGenerator.generate
  simp [hf]
/-! Characterization of a successful add_component. -/

theorem addMissing_fields (f : List (Nat × V)) (eid : Nat) :
    ∀ (l : List Nat) (em : EntityManager V),
      (EntityManager.addMissing f eid l em).1.tags_to_entities = em.tags_to_entities ∧
      (EntityManager.addMissing f eid l em).1.pending_removal = em.pending_removal ∧
      (EntityManager.addMissing f eid l em).1.id_generator = em.id_generator ∧
      (EntityManager.addMissing f eid l em).1.component_indices = em.component_indices := by
  intro l
  induction l with
  | nil => exact fun em => ⟨rfl, rfl, rfl, rfl⟩
  | cons d rest ih =>
    intro em
    unfold EntityManager.addMissing
    cases aget f d with
    | none => exact ⟨rfl, rfl, rfl, rfl⟩
    | some dv =>
      cases aget em.entities eid with
      | none => exact ⟨rfl, rfl, rfl, rfl⟩
      | some e => exact ih _

theorem resolveDeps_fields (cd : Nat → List Nat) (em : EntityManager V)
    (eid t : Nat) :
    (EntityManager.resolveDeps cd em eid t).1.tags_to_entities = em.tags_to_entities ∧
    (EntityManager.resolveDeps cd em eid t).1.pending_removal = em.pending_removal ∧
    (EntityManager.resolveDeps cd em eid t).1.id_generator = em.id_generator ∧
    (EntityManager.resolveDeps cd em eid t).1.component_indices = em.component_indices := by
  unfold EntityManager.resolveDeps
  split
  · exact ⟨rfl, rfl, rfl, rfl⟩
  · cases em.factory with
    | none => exact ⟨rfl, rfl, rfl, rfl⟩
    | some f => exact addMissing_fields f eid _ em

theorem add_component_success {cd : Nat → List Nat} {em : EntityManager V}
    {id t : Nat} {v : V}
    (h : (EntityManager.add_component cd em id t v).2 = none) :
    ∃ (m2 : EntityManager V) (e2 : Entity V), aget m2.entities id = some e2 ∧
      (EntityManager.add_component cd em id t v).1 =
        EntityManager.update_component_index
          { m2 with entities := aset m2.entities id (e2.add_component t v) }
          t id ∧
      m2.tags_to_entities = em.tags_to_entities ∧
      m2.pending_removal = em.pending_removal ∧
      m2.id_generator = em.id_generator := by
  have hf := resolveDeps_fields cd em id t
  unfold EntityManager.add_component at h ⊢
  by_cases h0 : (aget em.entities id).isNone
  · rw [if_pos h0] at h
    simp at h
  · rw [if_neg h0] at h ⊢
    rcases hres : EntityManager.resolveDeps cd em id t with ⟨m2, err⟩
    rw [hres] at h hf
    cases err with
    | some e => simp at h
    | none =>
      dsimp only at h ⊢
      cases ha : aget m2.entities id with
      | none =>
        rw [ha] at h
        simp at h
      | some e2 =>
        exact ⟨m2, e2, ha, rfl, hf.1, hf.2.1, hf.2.2.1⟩

theorem update_component_index_entities (em : EntityManager V) (t eid : Nat) :
    (EntityManager.update_component_index em t eid).entities = em.entities := rfl

theorem get_component_eq (em : EntityManager V) (id t : Nat) :
    em.get_component id t = (aget em.entities id).bind (fun e => e.get_component t) := by
  unfold EntityManager.get_component
  cases aget em.entities id <;> rfl

theorem add_component_get {cd : Nat → List Nat} {em : EntityManager V}
    {id t : Nat} {v : V}
    (h : (EntityManager.add_component cd em id t v).2 = none) :
    (EntityManager.add_component cd em id t v).1.get_component id t = some v := by
  rcases add_component_success h with ⟨m2, e2, ha, heq, _⟩
  rw [heq, get_component_eq, update_component_index_entities,
    aget_aset_self m2.entities id (e2.add_component t v)]
  simp [Entity.get_component, Entity.add_component, aget_aset_self]

theorem add_component_active {cd : Nat → List Nat} {em : EntityManager V}
    {id t : Nat} {v : V}
    (h : (EntityManager.add_component cd em id t v).2 = none) :
    ∃ e2, aget (EntityManager.add_component cd em id t v).1.entities id = some e2 := by
  rcases add_component_success h with ⟨m2, e2, ha, heq, _⟩
  rw [heq, update_component_index_entities]
  exact ⟨e2.add_component t v, aget_aset_self m2.entities id (e2.add_component t v)⟩

theorem add_component_fields {cd : Nat → List Nat} {em : EntityManager V}
    {id t : Nat} {v : V}
    (h : (EntityManager.add_component cd em id t v).2 = none) :
    (EntityManager.add_component cd em id t v).1.tags_to_entities = em.tags_to_entities ∧
    (EntityManager.add_component cd em id t v).1.pending_removal = em.pending_removal ∧
    (EntityManager.add_component cd em id t v).1.id_generator = em.id_generator := by
  rcases add_component_success h with ⟨m2, e2, ha, heq, h1, h2, h3⟩
  rw [heq]
  exact ⟨h1, h2, h3⟩

/-! After a flush, tag and component-index bookkeeping no longer mentions a
removed id. -/

theorem removeImmediate_scrub_index {em : EntityManager V} {id : Nat} {e : Entity V}
    (ha : aget em.entities id = some e) :
    ∀ p ∈ (em.remove_entity_immediate id).2.component_indices, id ∉ p.2 := by
  unfold EntityManager.remove_entity_immediate
  rw [ha]
  intro p hp
  simp only [List.mem_map] at hp
  rcases hp with ⟨q, hq, he⟩
  rw [← he]
  intro hc
  exact (mem_sremove.1 hc).2 rfl

theorem removeImmediate_index_free {em : EntityManager V} {id : Nat} (j : Nat)
    (h : ∀ p ∈ em.component_indices, id ∉ p.2) :
    ∀ p ∈ (em.remove_entity_immediate j).2.component_indices, id ∉ p.2 := by
  unfold EntityManager.remove_entity_immediate
  cases aget em.entities j with
  | none => exact h
  | some e =>
    intro p hp
    simp only [List.mem_map] at hp
    rcases hp with ⟨q, hq, he⟩
    rw [← he]
    intro hc
    exact h q hq (mem_sremove.1 hc).1

theorem tagfold_free {id : Nat} (j : Nat) :
    ∀ (tl : List String) (m : List (String × List Nat)),
      (∀ p ∈ m, id ∉ p.2) →
      ∀ p ∈ tl.foldl (fun m tag =>
          match aget m tag with
          | none => m
          | some s =>
            let s2 := sremove s j
            if s2 = [] then adel m tag else aset m tag s2) m,
        id ∉ p.2 := by
  intro tl
  induction tl with
  | nil => exact fun m h => h
  | cons tag rest ih =>
    intro m h
    rw [List.foldl_cons]
    cases hm : aget m tag with
    | none =>
      simp only [hm]
      exact ih m h
    | some s =>
      simp only [hm]
      split
      · exact ih _ (fun p hp => h p (mem_adel hp))
      · refine ih _ ?_
        intro p hp
        rcases mem_aset hp with hp1 | hp1
        · rw [hp1]
          intro hc
          exact h _ (aget_mem hm) (mem_sremove.1 hc).1
        · exact h p hp1

theorem removeImmediate_tag_free {em : EntityManager V} {id : Nat} (j : Nat)
    (h : ∀ p ∈ em.tags_to_entities, id ∉ p.2) :
    ∀ p ∈ (em.remove_entity_immediate j).2.tags_to_entities, id ∉ p.2 := by
  unfold EntityManager.remove_entity_immediate
  cases aget em.entities j with
  | none => exact h
  | some e => exact tagfold_free j e.tags em.tags_to_entities h

theorem foldl_removeImmediate_index_free {id : Nat} :
    ∀ (l : List Nat) (em : EntityManager V),
      (∀ p ∈ em.component_indices, id ∉ p.2) →
      ∀ p ∈ (l.foldl (fun m i => (m.remove_entity_immediate i).2) em).component_indices,
        id ∉ p.2 := by
  intro l
  induction l with
  | nil => exact fun em h => h
  | cons j rest ih => exact fun em h => ih _ (removeImmediate_index_free j h)

theorem foldl_removeImmediate_tag_free {id : Nat} :
    ∀ (l : List Nat) (em : EntityManager V),
      (∀ p ∈ em.tags_to_entities, id ∉ p.2) →
      ∀ p ∈ (l.foldl (fun m i => (m.remove_entity_immediate i).2) em).tags_to_entities,
        id ∉ p.2 := by
  intro l
  induction l with
  | nil => exact fun em h => h
  | cons j rest ih => exact fun em h => ih _ (removeImmediate_tag_free j h)

theorem foldl_removeImmediate_scrub_index {id : Nat} :
    ∀ (l : List Nat) (em : EntityManager V), id ∈ l →
      (∃ e, aget em.entities id = some e) →
      ∀ p ∈ (l.foldl (fun m i => (m.remove_entity_immediate i).2) em).component_indices,
        id ∉ p.2 := by
  intro l
  induction l with
  | nil => intro em h; simp at h
  | cons j rest ih =>
    intro em h ⟨e, ha⟩
    by_cases hj : id = j
    · subst hj
      exact foldl_removeImmediate_index_free rest _ (removeImmediate_scrub_index ha)
    · exact ih _ (List.mem_cons.1 h |>.resolve_left hj)
        ⟨e, removeImmediate_other_active hj ha⟩

theorem flush_scrub_index {em : EntityManager V} {id : Nat} {e : Entity V}
    (h : id ∈ em.pending_removal) (ha : aget em.entities id = some e) :
    ∀ p ∈ em.flush_removals.component_indices, id ∉ p.2 :=
  foldl_removeImmediate_scrub_index em.pending_removal em h ⟨e, ha⟩

theorem flush_tag_free {em : EntityManager V} {id : Nat}
    (h : ∀ p ∈ em.tags_to_entities, id ∉ p.2) :
    ∀ p ∈ em.flush_removals.tags_to_entities, id ∉ p.2 :=
  foldl_removeImmediate_tag_free em.pending_removal em h
/-! Depth-first visit: unfolding equations and basic invariants. -/

theorem visit_zero (deps : Nat → List Nat) (id : Nat) (s : VisitState) :
    visit deps 0 id s = s := rfl

theorem visit_succ_visited {deps : Nat → List Nat} {id : Nat} {s : VisitState}
    (f : Nat) (h : id ∈ s.visited) : visit deps (f+1) id s = s := by
  show (if id ∈ s.visited then s
        else if id ∈ s.temp then s
        else
          let s2 := (deps id).foldl (fun st d => visit deps f d st)
            ⟨s.visited, id :: s.temp, s.sorted⟩
          (⟨id :: s2.visited, s2.temp.erase id, s2.sorted ++ [id]⟩ : VisitState)) = s
  rw [if_pos h]

theorem visit_succ_temp {deps : Nat → List Nat} {id : Nat} {s : VisitState}
    (f : Nat) (h1 : id ∉ s.visited) (h2 : id ∈ s.temp) :
    visit deps (f+1) id s = s := by
  show (if id ∈ s.visited then s
        else if id ∈ s.temp then s
        else
          let s2 := (deps id).foldl (fun st d => visit deps f d st)
            ⟨s.visited, id :: s.temp, s.sorted⟩
          (⟨id :: s2.visited, s2.temp.erase id, s2.sorted ++ [id]⟩ : VisitState)) = s
  rw [if_neg h1, if_pos h2]

theorem visit_succ_main {deps : Nat → List Nat} {id : Nat} {s : VisitState}
    (f : Nat) (h1 : id ∉ s.visited) (h2 : id ∉ s.temp) :
    visit deps (f+1) id s =
      ⟨id :: ((deps id).foldl (fun st d => visit deps f d st)
          ⟨s.visited, id :: s.temp, s.sorted⟩).visited,
       ((deps id).foldl (fun st d => visit deps f d st)
          ⟨s.visited, id :: s.temp, s.sorted⟩).temp.erase id,
       ((deps id).foldl (fun st d => visit deps f d st)
          ⟨s.visited, id :: s.temp, s.sorted⟩).sorted ++ [id]⟩ := by
  show (if id ∈ s.visited then s
        else if id ∈ s.temp then s
        else
          let s2 := (deps id).foldl (fun st d => visit deps f d st)
            ⟨s.visited, id :: s.temp, s.sorted⟩
          (⟨id :: s2.visited, s2.temp.erase id, s2.sorted ++ [id]⟩ : VisitState)) = _
  rw [if_neg h1, if_neg h2]

theorem foldl_visit_pres (deps : Nat → List Nat) (f : Nat) (P : VisitState → Prop)
    (hstep : ∀ d st, P st → P (visit deps f d st)) :
    ∀ (l : List Nat) (st : VisitState), P st →
      P (l.foldl (fun st d => visit deps f d st) st) := by
  intro l
  induction l with
  | nil => exact fun st h => h
  | cons d rest ih => exact fun st h => ih _ (hstep d st h)

theorem visit_temp (deps : Nat → List Nat) :
    ∀ (fuel id : Nat) (s : VisitState), (visit deps fuel id s).temp = s.temp := by
  intro fuel
  induction fuel with
  | zero => intro id s; rfl
  | succ f ih =>
    intro id s
    by_cases h1 : id ∈ s.visited
    · rw [visit_succ_visited f h1]
    by_cases h2 : id ∈ s.temp
    · rw [visit_succ_temp f h1 h2]
    rw [visit_succ_main f h1 h2]
    have := foldl_visit_pres deps f (fun st => st.temp = id :: s.temp)
      (fun d st h => (ih d st).trans h) (deps id)
      ⟨s.visited, id :: s.temp, s.sorted⟩ rfl
    show (((deps id).foldl (fun st d => visit deps f d st)
      ⟨s.visited, id :: s.temp, s.sorted⟩).temp).erase id = s.temp
    rw [this]
    exact List.erase_cons_head id s.temp

theorem visit_visited_mono (deps : Nat → List Nat) :
    ∀ (fuel id : Nat) (s : VisitState), s.visited ⊆ (visit deps fuel id s).visited := by
  intro fuel
  induction fuel with
  | zero => intro id s; exact fun x h => h
  | succ f ih =>
    intro id s
    by_cases h1 : id ∈ s.visited
    · rw [visit_succ_visited f h1]
      exact fun x h => h
    by_cases h2 : id ∈ s.temp
    · rw [visit_succ_temp f h1 h2]
      exact fun x h => h
    rw [visit_succ_main f h1 h2]
    intro x hx
    exact List.mem_cons_of_mem _
      (foldl_visit_pres deps f (fun st => x ∈ st.visited)
        (fun d st h => ih d st h) (deps id)
        ⟨s.visited, id :: s.temp, s.sorted⟩ hx)

theorem visit_sorted_extend (deps : Nat → List Nat) :
    ∀ (fuel id : Nat) (s : VisitState),
      ∃ t1, (visit deps fuel id s).sorted = s.sorted ++ t1 := by
  intro fuel
  induction fuel with
  | zero => intro id s; exact ⟨[], by simp [visit_zero]⟩
  | succ f ih =>
    intro id s
    by_cases h1 : id ∈ s.visited
    · rw [visit_succ_visited f h1]
      exact ⟨[], by simp⟩
    by_cases h2 : id ∈ s.temp
    · rw [visit_succ_temp f h1 h2]
      exact ⟨[], by simp⟩
    rw [visit_succ_main f h1 h2]
    have := foldl_visit_pres deps f (fun st => ∃ t1, st.sorted = s.sorted ++ t1)
      (fun d st h => by
        rcases h with ⟨t1, h⟩
        rcases ih d st with ⟨t2, h2⟩
        exact ⟨t1 ++ t2, by rw [h2, h, List.append_assoc]⟩)
      (deps id) ⟨s.visited, id :: s.temp, s.sorted⟩ ⟨[], by simp⟩
    rcases this with ⟨t1, h⟩
    exact ⟨t1 ++ [id], by
      show (((deps id).foldl (fun st d => visit deps f d st)
        ⟨s.visited, id :: s.temp, s.sorted⟩).sorted) ++ [id] = s.sorted ++ (t1 ++ [id])
      rw [h, List.append_assoc]⟩

theorem visit_visited_new (deps : Nat → List Nat) :
    ∀ (fuel id : Nat) (s : VisitState) (y : Nat),
      y ∈ (visit deps fuel id s).visited → y ∈ s.visited ∨ y ∉ s.temp := by
  intro fuel
  induction fuel with
  | zero => intro id s y h; exact Or.inl h
  | succ f ih =>
    intro id s y
    by_cases h1 : id ∈ s.visited
    · rw [visit_succ_visited f h1]
      exact Or.inl
    by_cases h2 : id ∈ s.temp
    · rw [visit_succ_temp f h1 h2]
      exact Or.inl
    rw [visit_succ_main f h1 h2]
    intro hy
    rcases List.mem_cons.1 hy with hy | hy
    · exact Or.inr (hy ▸ h2)
    · have := foldl_visit_pres deps f
        (fun st => st.temp = id :: s.temp ∧
          (∀ z, z ∈ st.visited → z ∈ s.visited ∨ z ∉ s.temp))
        (fun d st h => by
          refine ⟨(visit_temp deps f d st).trans h.1, fun z hz => ?_⟩
          rcases ih d st z hz with hz1 | hz1
          · exact h.2 z hz1
          · rw [h.1] at hz1
            exact Or.inr (fun hc => hz1 (List.mem_cons_of_mem _ hc)))
        (deps id) ⟨s.visited, id :: s.temp, s.sorted⟩ ⟨rfl, fun z hz => Or.inl hz⟩
      exact this.2 y hy
/-! Measure and cycle-detection lemmas for the depth-first visit. -/

theorem chain_transGen {deps : Nat → List Nat} :
    ∀ (l : List Nat) (x : Nat), List.Chain' (depRel deps) (x :: l) →
      ∀ y ∈ l, Relation.TransGen (depRel deps) x y := by
  intro l
  induction l with
  | nil => intro x _ y hy; simp at hy
  | cons a t ih =>
    intro x hc y hy
    rw [List.chain'_cons] at hc
    rcases List.mem_cons.1 hy with hy | hy
    · exact hy ▸ Relation.TransGen.single hc.1
    · exact Relation.TransGen.head hc.1 (ih a hc.2 y hy)

theorem length_filter_le_aux {l : List Nat} {p q : Nat → Bool}
    (h : ∀ x ∈ l, p x = true → q x = true) :
    (l.filter p).length ≤ (l.filter q).length := by
  induction l with
  | nil => exact Nat.le_refl _
  | cons a t ih =>
    have ht : ∀ x ∈ t, p x = true → q x = true :=
      fun x hx => h x (List.mem_cons_of_mem _ hx)
    cases hpa : p a with
    | true =>
      rw [List.filter_cons_of_pos hpa,
        List.filter_cons_of_pos (h a (List.mem_cons_self _ _) hpa)]
      exact Nat.succ_le_succ (ih ht)
    | false =>
      rw [List.filter_cons_of_neg (by simp [hpa])]
      cases hqa : q a with
      | true =>
        rw [List.filter_cons_of_pos hqa]
        exact Nat.le_trans (ih ht) (Nat.le_succ _)
      | false =>
        rw [List.filter_cons_of_neg (by simp [hqa])]
        exact ih ht

theorem length_filter_lt_aux {l : List Nat} {p q : Nat → Bool} {a : Nat}
    (ha : a ∈ l) (hpa : p a = false) (hqa : q a = true)
    (h : ∀ x ∈ l, p x = true → q x = true) :
    (l.filter p).length < (l.filter q).length := by
  induction l with
  | nil => simp at ha
  | cons b t ih =>
    have ht : ∀ x ∈ t, p x = true → q x = true :=
      fun x hx => h x (List.mem_cons_of_mem _ hx)
    by_cases hb : b = a
    · subst hb
      rw [List.filter_cons_of_neg (by simp [hpa]), List.filter_cons_of_pos hqa]
      exact Nat.lt_succ_of_le (length_filter_le_aux ht)
    · have hat : a ∈ t := (List.mem_cons.1 ha).resolve_left (fun e => hb e.symm)
      cases hpb : p b with
      | true =>
        rw [List.filter_cons_of_pos hpb,
          List.filter_cons_of_pos (h b (List.mem_cons_self _ _) hpb)]
        exact Nat.succ_lt_succ (ih hat ht)
      | false =>
        rw [List.filter_cons_of_neg (by simp [hpb])]
        cases hqb : q b with
        | true =>
          rw [List.filter_cons_of_pos hqb]
          exact Nat.lt_succ_of_lt (ih hat ht)
        | false =>
          rw [List.filter_cons_of_neg (by simp [hqb])]
          exact ih hat ht

theorem visit_mu_mono (deps : Nat → List Nat) (univ : List Nat)
    (fuel id : Nat) (s : VisitState) :
    visitMeasure univ (visit deps fuel id s) ≤ visitMeasure univ s := by
  unfold visitMeasure
  apply length_filter_le_aux
  intro x _ hp
  simp only [decide_eq_true_eq] at hp ⊢
  refine ⟨?_, fun hc => hp.2 (visit_visited_mono deps fuel id s hc)⟩
  rw [← visit_temp deps fuel id s]
  exact hp.1

theorem mu_le_length (univ : List Nat) (s : VisitState) :
    visitMeasure univ s ≤ univ.length :=
  List.length_filter_le _ _

theorem mu_push_lt {univ : List Nat} {id : Nat} {s : VisitState}
    (hid : id ∈ univ) (h1 : id ∉ s.visited) (h2 : id ∉ s.temp) :
    visitMeasure univ (⟨s.visited, id :: s.temp, s.sorted⟩ : VisitState) <
      visitMeasure univ s := by
  unfold visitMeasure
  apply length_filter_lt_aux hid
  · simp
  · simp [h1, h2]
  · intro x _ hp
    simp only [decide_eq_true_eq] at hp ⊢
    exact ⟨fun hc => hp.1 (List.mem_cons_of_mem _ hc), hp.2⟩
/-! Main correctness of the depth-first visit: with enough fuel, an acyclic
graph, and a well-formed state, the visit keeps the accumulated order
topological and marks the visited id. -/

theorem visit_main (deps : Nat → List Nat) (univ : List Nat)
    (hclosed : ∀ x d, d ∈ deps x → d ∈ univ)
    (hacyc : ∀ x, ¬ Relation.TransGen (depRel deps) x x) :
    ∀ (fuel : Nat) (s : VisitState) (id : Nat),
      visitMeasure univ s < fuel →
      id ∈ univ →
      (∀ y, y ∈ s.visited ↔ y ∈ s.sorted) →
      s.sorted.Nodup →
      Topo deps s.sorted →
      List.Chain' (depRel deps) (id :: s.temp) →
      ((∀ y, y ∈ (visit deps fuel id s).visited ↔ y ∈ (visit deps fuel id s).sorted) ∧
       (visit deps fuel id s).sorted.Nodup ∧
       Topo deps (visit deps fuel id s).sorted ∧
       id ∈ (visit deps fuel id s).visited) := by
  intro fuel
  induction fuel with
  | zero => intro s id hmu; omega
  | succ f ih =>
    intro s id hmu hid hsync hnodup htopo hchain
    by_cases h1 : id ∈ s.visited
    · rw [visit_succ_visited f h1]
      exact ⟨hsync, hnodup, htopo, h1⟩
    by_cases h2 : id ∈ s.temp
    · exact absurd (chain_transGen s.temp id hchain id h2) (hacyc id)
    have hmu1 : visitMeasure univ (⟨s.visited, id :: s.temp, s.sorted⟩ : VisitState) < f := by
      have hd := mu_push_lt hid h1 h2
      omega
    have hfold : ∀ (l : List Nat) (st : VisitState),
        (∀ d ∈ l, d ∈ deps id) →
        st.temp = id :: s.temp →
        visitMeasure univ st < f →
        (∀ y, y ∈ st.visited ↔ y ∈ st.sorted) →
        st.sorted.Nodup →
        Topo deps st.sorted →
        (∀ y, y ∈ st.visited → y ∈ s.visited ∨ y ∉ id :: s.temp) →
        ((∀ y, y ∈ (l.foldl (fun st d => visit deps f d st) st).visited ↔
            y ∈ (l.foldl (fun st d => visit deps f d st) st).sorted) ∧
         (l.foldl (fun st d => visit deps f d st) st).sorted.Nodup ∧
         Topo deps (l.foldl (fun st d => visit deps f d st) st).sorted ∧
         (l.foldl (fun st d => visit deps f d st) st).temp = id :: s.temp ∧
         (∀ y, y ∈ (l.foldl (fun st d => visit deps f d st) st).visited →
            y ∈ s.visited ∨ y ∉ id :: s.temp) ∧
         (∀ d ∈ l, d ∈ (l.foldl (fun st d => visit deps f d st) st).visited)) := by
      intro l
      induction l with
      | nil =>
        intro st _ ht hmu2 hsy hnd htp hnew
        exact ⟨hsy, hnd, htp, ht, hnew, by simp⟩
      | cons d rest ihl =>
        intro st hdl ht hmu2 hsy hnd htp hnew
        have hd : d ∈ deps id := hdl d (List.mem_cons_self _ _)
        have hchain2 : List.Chain' (depRel deps) (d :: st.temp) := by
          rw [ht]
          exact List.chain'_cons.2 ⟨hd, hchain⟩
        have hstep := ih st d hmu2 (hclosed id d hd) hsy hnd htp hchain2
        have htemp2 : (visit deps f d st).temp = id :: s.temp :=
          (visit_temp deps f d st).trans ht
        have hmu3 : visitMeasure univ (visit deps f d st) < f :=
          Nat.lt_of_le_of_lt (visit_mu_mono deps univ f d st) hmu2
        have hnew2 : ∀ y, y ∈ (visit deps f d st).visited →
            y ∈ s.visited ∨ y ∉ id :: s.temp := by
          intro y hy
          rcases visit_visited_new deps f d st y hy with hy1 | hy1
          · exact hnew y hy1
          · rw [ht] at hy1
            exact Or.inr hy1
        have hrest := ihl (visit deps f d st)
          (fun d2 hd2 => hdl d2 (List.mem_cons_of_mem _ hd2))
          htemp2 hmu3 hstep.1 hstep.2.1 hstep.2.2.1 hnew2
        rw [List.foldl_cons]
        refine ⟨hrest.1, hrest.2.1, hrest.2.2.1, hrest.2.2.2.1, hrest.2.2.2.2.1, ?_⟩
        intro d2 hd2
        rcases List.mem_cons.1 hd2 with rfl | hd2
        · exact foldl_visit_pres deps f (fun st2 => d2 ∈ st2.visited)
            (fun d3 st3 h3 => visit_visited_mono deps f d3 st3 h3) rest _ hstep.2.2.2
        · exact hrest.2.2.2.2.2 d2 hd2
    have hres := hfold (deps id) ⟨s.visited, id :: s.temp, s.sorted⟩
      (fun d hd => hd) rfl hmu1 hsync hnodup htopo (fun y hy => Or.inl hy)
    have hidnot : id ∉ ((deps id).foldl (fun st d => visit deps f d st)
        ⟨s.visited, id :: s.temp, s.sorted⟩).visited := by
      intro hc
      rcases hres.2.2.2.2.1 id hc with hc1 | hc1
      · exact h1 hc1
      · exact hc1 (List.mem_cons_self _ _)
    have hidnots : id ∉ ((deps id).foldl (fun st d => visit deps f d st)
        ⟨s.visited, id :: s.temp, s.sorted⟩).sorted :=
      fun hc => hidnot ((hres.1 id).2 hc)
    rw [visit_succ_main f h1 h2]
    refine ⟨?_, ?_, ?_, ?_⟩
    · intro y
      show y ∈ id :: _ ↔ y ∈ _ ++ [id]
      rw [List.mem_cons, List.mem_append, List.mem_singleton]
      rcases hres with ⟨hs1, _⟩
      rw [hs1 y]
      tauto
    · show (_ ++ [id]).Nodup
      rw [List.nodup_append]
      refine ⟨hres.2.1, List.nodup_singleton _, ?_⟩
      intro a ha hb
      rw [List.mem_singleton] at hb
      exact hidnots (hb ▸ ha)
    · intro x hx d hdx
      show d ∈ _ ++ [id] ∧ _
      rcases List.mem_append.1 hx with hx1 | hx1
      · have hxt := hres.2.2.1 x hx1 d hdx
        refine ⟨List.mem_append_left _ hxt.1, ?_⟩
        rw [listPos_append_left hxt.1, listPos_append_left hx1]
        exact hxt.2
      · rw [List.mem_singleton] at hx1
        subst hx1
        have hdm : d ∈ ((deps x).foldl (fun st d => visit deps f d st)
            ⟨s.visited, x :: s.temp, s.sorted⟩).sorted :=
          (hres.1 d).1 (hres.2.2.2.2.2 d hdx)
        refine ⟨List.mem_append_left _ hdm, ?_⟩
        rw [listPos_append_left hdm, listPos_append_self hidnots]
        exact listPos_lt_length hdm
    · exact List.mem_cons_self _ _
/-! From the visit lemma to the per-phase execution order of the registry. -/

theorem allIds_closed (r : SystemRegistry) :
    ∀ x d, d ∈ r.depsFun x → d ∈ r.allIds := by
  intro x d hd
  unfold SystemRegistry.depsFun at hd
  cases ha : aget r.dependencies x with
  | none => rw [ha] at hd; simp at hd
  | some l =>
    rw [ha] at hd
    simp only [Option.getD_some] at hd
    unfold SystemRegistry.allIds
    refine List.mem_append_left _ (List.mem_append_right _ ?_)
    rw [List.mem_flatten]
    exact ⟨l, List.mem_map_of_mem Prod.snd (aget_mem ha), hd⟩

theorem phase_ids_in_allIds (r : SystemRegistry) (ph : SystemPhase) :
    ∀ p ∈ (aget r.phase_systems ph).getD [], p.1 ∈ r.allIds := by
  intro p hp
  cases ha : aget r.phase_systems ph with
  | none => rw [ha] at hp; simp at hp
  | some l =>
    rw [ha] at hp
    simp only [Option.getD_some] at hp
    unfold SystemRegistry.allIds
    refine List.mem_append_right _ ?_
    rw [List.mem_map]
    refine ⟨p, ?_, rfl⟩
    rw [List.mem_flatten]
    exact ⟨l, List.mem_map_of_mem Prod.snd (aget_mem ha), hp⟩

theorem insertByPriority_perm (x : Nat × Int) :
    ∀ l : List (Nat × Int), (insertByPriority x l).Perm (x :: l) := by
  intro l
  induction l with
  | nil => exact List.Perm.refl _
  | cons y ys ih =>
    unfold insertByPriority
    split
    · exact (ih.cons y).trans (List.Perm.swap x y ys)
    · exact List.Perm.refl _

theorem sortByPriority_perm :
    ∀ l : List (Nat × Int), (sortByPriority l).Perm l := by
  intro l
  induction l with
  | nil => exact List.Perm.refl _
  | cons x xs ih =>
    exact (insertByPriority_perm x (sortByPriority xs)).trans (ih.cons x)

theorem mem_sortByPriority {l : List (Nat × Int)} {p : Nat × Int}
    (h : p ∈ sortByPriority l) : p ∈ l :=
  (sortByPriority_perm l).mem_iff.1 h

theorem execution_order_props (r : SystemRegistry) (ph : SystemPhase)
    (hacyc : ∀ x, ¬ Relation.TransGen (depRel r.depsFun) x x) :
    Topo r.depsFun (r.execution_order ph) ∧ (r.execution_order ph).Nodup := by
  have hclosed := allIds_closed r
  have hfold : ∀ (l : List (Nat × Int)) (st : VisitState),
      (∀ p ∈ l, p.1 ∈ r.allIds) →
      st.temp = [] →
      (∀ y, y ∈ st.visited ↔ y ∈ st.sorted) →
      st.sorted.Nodup →
      Topo r.depsFun st.sorted →
      ((∀ y, y ∈ (l.foldl (fun st p => visit r.depsFun (r.allIds.length + 1) p.1 st) st).visited ↔
          y ∈ (l.foldl (fun st p => visit r.depsFun (r.allIds.length + 1) p.1 st) st).sorted) ∧
       (l.foldl (fun st p => visit r.depsFun (r.allIds.length + 1) p.1 st) st).sorted.Nodup ∧
       Topo r.depsFun (l.foldl (fun st p => visit r.depsFun (r.allIds.length + 1) p.1 st) st).sorted ∧
       (l.foldl (fun st p => visit r.depsFun (r.allIds.length + 1) p.1 st) st).temp = []) := by
    intro l
    induction l with
    | nil => exact fun st _ ht h1 h2 h3 => ⟨h1, h2, h3, ht⟩
    | cons p rest ihl =>
      intro st hl ht h1 h2 h3
      have hmu : visitMeasure r.allIds st < r.allIds.length + 1 :=
        Nat.lt_succ_of_le (mu_le_length _ _)
      have hchain : List.Chain' (depRel r.depsFun) (p.1 :: st.temp) := by
        rw [ht]
        exact List.chain'_singleton _
      have hstep := visit_main r.depsFun r.allIds hclosed hacyc
        (r.allIds.length + 1) st p.1 hmu (hl p (List.mem_cons_self _ _)) h1 h2 h3 hchain
      have ht2 : (visit r.depsFun (r.allIds.length + 1) p.1 st).temp = [] :=
        (visit_temp _ _ _ _).trans ht
      rw [List.foldl_cons]
      exact ihl _ (fun q hq => hl q (List.mem_cons_of_mem _ hq)) ht2
        hstep.1 hstep.2.1 hstep.2.2.1
  have hp : ∀ p ∈ sortByPriority ((aget r.phase_systems ph).getD []), p.1 ∈ r.allIds :=
    fun p hp => phase_ids_in_allIds r ph p (mem_sortByPriority hp)
  have := hfold (sortByPriority ((aget r.phase_systems ph).getD []))
    ⟨[], [], []⟩ hp rfl (by simp) (by simp) (by intro x hx; simp at hx)
  exact ⟨this.2.2.1, this.2.1⟩

theorem topo_transGen {deps : Nat → List Nat} {l : List Nat} (htopo : Topo deps l) :
    ∀ {d x : Nat}, Relation.TransGen (depRel deps) d x → x ∈ l →
      d ∈ l ∧ listPos l d < listPos l x := by
  intro d x h
  induction h with
  | single hdx => exact fun hx => htopo _ hx d hdx
  | tail hdb hbc ihb =>
    intro hx
    have hb := htopo _ hx _ hbc
    have hd := ihb hb.1
    exact ⟨hd.1, Nat.lt_trans hd.2 hb.2⟩
/-! Reachability: every id the visit pushes is reachable from the start id
along declared dependencies. -/

theorem visit_reach (deps : Nat → List Nat) :
    ∀ (fuel id : Nat) (s : VisitState) (y : Nat),
      y ∈ (visit deps fuel id s).sorted →
      y ∈ s.sorted ∨ Relation.ReflTransGen (reachRel deps) id y := by
  intro fuel
  induction fuel with
  | zero => intro id s y h; exact Or.inl h
  | succ f ih =>
    intro id s y
    by_cases h1 : id ∈ s.visited
    · rw [visit_succ_visited f h1]
      exact Or.inl
    by_cases h2 : id ∈ s.temp
    · rw [visit_succ_temp f h1 h2]
      exact Or.inl
    rw [visit_succ_main f h1 h2]
    intro hy
    rcases List.mem_append.1 hy with hy | hy
    · have haux : ∀ (l : List Nat) (st : VisitState), (∀ d ∈ l, d ∈ deps id) →
          (∀ z, z ∈ st.sorted →
            z ∈ s.sorted ∨ Relation.ReflTransGen (reachRel deps) id z) →
          ∀ z, z ∈ (l.foldl (fun st d => visit deps f d st) st).sorted →
            z ∈ s.sorted ∨ Relation.ReflTransGen (reachRel deps) id z := by
        intro l
        induction l with
        | nil => exact fun st _ h z hz => h z hz
        | cons d rest ihl =>
          intro st hdl h
          rw [List.foldl_cons]
          refine ihl _ (fun d2 hd2 => hdl d2 (List.mem_cons_of_mem _ hd2)) ?_
          intro z hz
          rcases ih d st z hz with hz1 | hz1
          · exact h z hz1
          · exact Or.inr (Relation.ReflTransGen.head
              (hdl d (List.mem_cons_self _ _)) hz1)
      exact haux (deps id) ⟨s.visited, id :: s.temp, s.sorted⟩
        (fun d hd => hd) (fun z hz => Or.inl hz) y hy
    · rw [List.mem_singleton] at hy
      exact Or.inr (hy ▸ Relation.ReflTransGen.refl)
theorem execution_order_reach (r : SystemRegistry) (ph : SystemPhase) :
    ∀ y ∈ r.execution_order ph, ∃ p ∈ (aget r.phase_systems ph).getD [],
      Relation.ReflTransGen (reachRel r.depsFun) p.1 y := by
  have haux : ∀ (l : List (Nat × Int)) (st : VisitState),
      (∀ p ∈ l, p ∈ (aget r.phase_systems ph).getD []) →
      (∀ z, z ∈ st.sorted → ∃ p ∈ (aget r.phase_systems ph).getD [],
        Relation.ReflTransGen (reachRel r.depsFun) p.1 z) →
      ∀ z, z ∈ (l.foldl (fun st p => visit r.depsFun (r.allIds.length + 1) p.1 st) st).sorted →
        ∃ p ∈ (aget r.phase_systems ph).getD [],
          Relation.ReflTransGen (reachRel r.depsFun) p.1 z := by
    intro l
    induction l with
    | nil => exact fun st _ h z hz => h z hz
    | cons p rest ihl =>
      intro st hl h
      rw [List.foldl_cons]
      refine ihl _ (fun q hq => hl q (List.mem_cons_of_mem _ hq)) ?_
      intro z hz
      rcases visit_reach r.depsFun (r.allIds.length + 1) p.1 st z hz with hz1 | hz1
      · exact h z hz1
      · exact ⟨p, hl p (List.mem_cons_self _ _), hz1⟩
  intro y hy
  exact haux (sortByPriority ((aget r.phase_systems ph).getD [])) ⟨[], [], []⟩
    (fun p hp => mem_sortByPriority hp) (fun z hz => by simp at hz) y hy

theorem reach_phase {r : SystemRegistry} {ph : SystemPhase}
    (hB : ∀ p ∈ r.dependencies, ∀ d ∈ p.2, r.phase_of d = r.phase_of p.1) :
    ∀ {x y : Nat}, Relation.ReflTransGen (reachRel r.depsFun) x y →
      r.phase_of x = some ph → r.phase_of y = some ph := by
  intro x y h
  induction h with
  | refl => exact fun h => h
  | tail hab hbc ihb =>
    intro hx
    have hb := ihb hx
    unfold reachRel SystemRegistry.depsFun at hbc
    cases ha : aget r.dependencies _ with
    | none => rw [ha] at hbc; simp at hbc
    | some l =>
      rw [ha] at hbc
      simp only [Option.getD_some] at hbc
      rw [hB _ (aget_mem ha) _ hbc]
      exact hb

theorem run_phase_trace_phase (r : SystemRegistry) (ph : SystemPhase)
    (hA : ∀ e ∈ r.phase_systems, ∀ q ∈ e.2, r.phase_of q.1 = some e.1)
    (hB : ∀ p ∈ r.dependencies, ∀ d ∈ p.2, r.phase_of d = r.phase_of p.1) :
    ∀ id ∈ r.run_phase_trace ph, r.phase_of id = some ph := by
  intro id hid
  unfold SystemRegistry.run_phase_trace at hid
  have hmemo : id ∈ r.execution_order ph := List.mem_of_mem_filter hid
  rcases execution_order_reach r ph id hmemo with ⟨p, hp, hreach⟩
  have hstart : r.phase_of p.1 = some ph := by
    cases ha : aget r.phase_systems ph with
    | none => rw [ha] at hp; simp at hp
    | some l =>
      rw [ha] at hp
      simp only [Option.getD_some] at hp
      exact hA _ (aget_mem ha) p hp
  exact reach_phase hB hreach hstart

/-! Order and stability of the priority sort. -/

theorem mem_insertByPriority {x p : Nat × Int} {l : List (Nat × Int)} :
    p ∈ insertByPriority x l ↔ p = x ∨ p ∈ l :=
  (insertByPriority_perm x l).mem_iff.trans List.mem_cons

theorem insertByPriority_sorted {x : Nat × Int} {l : List (Nat × Int)}
    (h : List.Pairwise (fun a b : Nat × Int => a.2 ≤ b.2) l) :
    List.Pairwise (fun a b : Nat × Int => a.2 ≤ b.2) (insertByPriority x l) := by
  induction l with
  | nil => simp [insertByPriority]
  | cons y ys ih =>
    rw [List.pairwise_cons] at h
    unfold insertByPriority
    split
    · rw [List.pairwise_cons]
      refine ⟨?_, ih h.2⟩
      intro a ha
      rcases mem_insertByPriority.1 ha with rfl | ha
      · omega
      · exact h.1 a ha
    · rw [List.pairwise_cons]
      refine ⟨?_, List.pairwise_cons.2 h⟩
      intro a ha
      rcases List.mem_cons.1 ha with rfl | ha
      · omega
      · exact le_trans (by omega) (h.1 a ha)

theorem sortByPriority_sorted :
    ∀ l : List (Nat × Int),
      List.Pairwise (fun a b : Nat × Int => a.2 ≤ b.2) (sortByPriority l) := by
  intro l
  induction l with
  | nil => simp [sortByPriority]
  | cons x xs ih => exact insertByPriority_sorted ih

theorem insertByPriority_decomp (x : Nat × Int) :
    ∀ l : List (Nat × Int), ∃ l1 l2, l = l1 ++ l2 ∧
      insertByPriority x l = l1 ++ x :: l2 := by
  intro l
  induction l with
  | nil => exact ⟨[], [], rfl, rfl⟩
  | cons y ys ih =>
    unfold insertByPriority
    split
    · rcases ih with ⟨l1, l2, he, hi⟩
      exact ⟨y :: l1, l2, by rw [he]; rfl, by rw [hi]; rfl⟩
    · exact ⟨[], y :: ys, rfl, rfl⟩

theorem sublist_insertByPriority {t : List (Nat × Int)} {m : List (Nat × Int)}
    (x : Nat × Int) (h : t.Sublist m) : t.Sublist (insertByPriority x m) := by
  rcases insertByPriority_decomp x m with ⟨l1, l2, he, hi⟩
  rw [hi]
  refine h.trans ?_
  rw [he]
  exact List.Sublist.append_left (List.sublist_cons_self _ _) l1

theorem pair_sublist_insertByPriority {x b : Nat × Int}
    (hle : x.2 ≤ b.2) :
    ∀ {m : List (Nat × Int)}, b ∈ m → [x, b].Sublist (insertByPriority x m) := by
  intro m
  induction m with
  | nil => intro h; simp at h
  | cons y ys ih =>
    intro hb
    unfold insertByPriority
    split
    · rename_i hy
      have hbys : b ∈ ys := by
        rcases List.mem_cons.1 hb with rfl | hb
        · omega
        · exact hb
      exact (ih hbys).cons y
    · exact List.Sublist.cons₂ x (List.singleton_sublist.2 hb)

theorem sortByPriority_stable {a b : Nat × Int} (hle : a.2 ≤ b.2) :
    ∀ {l : List (Nat × Int)}, [a, b].Sublist l → [a, b].Sublist (sortByPriority l) := by
  intro l
  induction l with
  | nil => intro h; cases h
  | cons x xs ih =>
    intro h
    cases h with
    | cons _ h1 => exact sublist_insertByPriority x (ih h1)
    | cons₂ _ h1 =>
      exact pair_sublist_insertByPriority hle
        ((sortByPriority_perm xs).mem_iff.2 (List.singleton_sublist.1 h1))
/-! Acyclicity helpers and the dependency-free characterization. -/

theorem transGen_lt {deps : Nat → List Nat}
    (h : ∀ a b, depRel deps a b → a < b) :
    ∀ {x y : Nat}, Relation.TransGen (depRel deps) x y → x < y := by
  intro x y hxy
  induction hxy with
  | single h1 => exact h _ _ h1
  | tail _ h1 ih => exact Nat.lt_trans ih (h _ _ h1)

theorem acyclic_of_desc (r : SystemRegistry)
    (hd : ∀ p ∈ r.dependencies, ∀ d ∈ p.2, d < p.1) :
    ∀ x, ¬ Relation.TransGen (depRel r.depsFun) x x := by
  have hlt : ∀ a b, depRel r.depsFun a b → a < b := by
    intro a b hab
    unfold depRel SystemRegistry.depsFun at hab
    cases ha : aget r.dependencies b with
    | none => rw [ha] at hab; simp at hab
    | some l =>
      rw [ha] at hab
      simp only [Option.getD_some] at hab
      exact hd _ (aget_mem ha) a hab
  intro x hx
  exact absurd (transGen_lt hlt hx) (by omega)

theorem transGen_no_deps {deps : Nat → List Nat} {y : Nat} (h : deps y = []) :
    ∀ x, ¬ Relation.TransGen (depRel deps) x y := by
  intro x hx
  cases hx with
  | single h1 => rw [depRel, h] at h1; simp at h1
  | tail _ h1 => rw [depRel, h] at h1; simp at h1

theorem depsFun_nil {r : SystemRegistry}
    (hnd : ∀ p ∈ r.dependencies, p.2 = []) : ∀ x, r.depsFun x = [] := by
  intro x
  unfold SystemRegistry.depsFun
  cases ha : aget r.dependencies x with
  | none => rfl
  | some l =>
    simp only [Option.getD_some]
    exact hnd _ (aget_mem ha)

theorem nodeps_execution_order (r : SystemRegistry)
    (hnd : ∀ p ∈ r.dependencies, p.2 = []) (ph : SystemPhase)
    (hnodup : (((aget r.phase_systems ph).getD []).map Prod.fst).Nodup) :
    r.execution_order ph =
      (sortByPriority ((aget r.phase_systems ph).getD [])).map Prod.fst := by
  have hdeps := depsFun_nil hnd
  have hfold : ∀ (l : List (Nat × Int)) (st : VisitState),
      st.temp = [] →
      (∀ p ∈ l, p.1 ∉ st.visited) →
      (l.map Prod.fst).Nodup →
      ((l.foldl (fun st p => visit r.depsFun (r.allIds.length + 1) p.1 st) st).sorted =
        st.sorted ++ l.map Prod.fst ∧
       (∀ y, y ∈ (l.foldl (fun st p => visit r.depsFun (r.allIds.length + 1) p.1 st) st).visited ↔
          y ∈ l.map Prod.fst ∨ y ∈ st.visited) ∧
       (l.foldl (fun st p => visit r.depsFun (r.allIds.length + 1) p.1 st) st).temp = []) := by
    intro l
    induction l with
    | nil => exact fun st ht _ _ => ⟨by simp, fun y => by simp, ht⟩
    | cons p rest ihl =>
      intro st ht hfr hnd2
      have hv : p.1 ∉ st.visited := hfr p (List.mem_cons_self _ _)
      have htm : p.1 ∉ st.temp := by rw [ht]; simp
      have hstep := @visit_succ_main r.depsFun p.1 st r.allIds.length hv htm
      rw [hdeps p.1] at hstep
      simp only [List.foldl_nil] at hstep
      rw [List.foldl_cons, hstep]
      rw [List.map_cons, List.nodup_cons] at hnd2
      have hfr2 : ∀ q ∈ rest, q.1 ∉ p.1 :: st.visited := by
        intro q hq
        rw [List.mem_cons]
        rintro (he | he)
        · exact hnd2.1 (he ▸ List.mem_map_of_mem Prod.fst hq)
        · exact hfr q (List.mem_cons_of_mem _ hq) he
      have ht2 : (⟨p.1 :: st.visited, (p.1 :: st.temp).erase p.1,
          st.sorted ++ [p.1]⟩ : VisitState).temp = [] := by
        show (p.1 :: st.temp).erase p.1 = []
        rw [List.erase_cons_head, ht]
      have := ihl ⟨p.1 :: st.visited, (p.1 :: st.temp).erase p.1, st.sorted ++ [p.1]⟩
        ht2 hfr2 hnd2.2
      refine ⟨?_, ?_, this.2.2⟩
      · rw [this.1]
        show (st.sorted ++ [p.1]) ++ _ = _
        rw [List.append_assoc]
        rfl
      · intro y
        rw [this.2.1 y]
        show y ∈ List.map Prod.fst rest ∨ y ∈ p.1 :: st.visited ↔ _
        rw [List.mem_cons, List.map_cons, List.mem_cons]
        tauto
  have hnd3 : ((sortByPriority ((aget r.phase_systems ph).getD [])).map Prod.fst).Nodup :=
    (((sortByPriority_perm _).map Prod.fst).nodup_iff).2 hnodup
  have := hfold (sortByPriority ((aget r.phase_systems ph).getD []))
    ⟨[], [], []⟩ rfl (by intro p hp; simp) hnd3
  unfold SystemRegistry.execution_order
  rw [this.1]
  rfl

theorem pairwise_all {α : Type} {R : α → α → Prop} :
    ∀ l : List α, (∀ a ∈ l, ∀ b ∈ l, R a b) → List.Pairwise R l := by
  intro l
  induction l with
  | nil => exact fun _ => List.Pairwise.nil
  | cons a t ih =>
    intro h
    rw [List.pairwise_cons]
    exact ⟨fun b hb => h a (List.mem_cons_self _ _) b (List.mem_cons_of_mem _ hb),
      ih (fun x hx y hy => h x (List.mem_cons_of_mem _ hx) y (List.mem_cons_of_mem _ hy))⟩

theorem filterMap_phase_const (r : SystemRegistry) (ph : SystemPhase)
    {tr : List Nat} (h : ∀ id ∈ tr, r.phase_of id = some ph) :
    ∀ x ∈ tr.filterMap r.phase_of, x = ph := by
  intro x hx
  rcases List.mem_filterMap.1 hx with ⟨a, ha, he⟩
  have := h a ha
  rw [this] at he
  exact (Option.some_inj.1 he).symm
/-! Claim theorems. -/

/-- C1: the claim says both registries report a CircularDependency error on a
cyclic phase and perform no partial execution. Evaluated at the two-system
cycle: the basic SystemRegistry (src/system/system_registry.rs) silently
produces the order [1, 0] and run_phase executes both systems - the back-edge
is skipped, exactly what its own comment calls an ignored error - while the
optimized registry (src/systems/optimized/system_registry.rs) surfaces the
circular-dependency error naming a participating system and update_all
executes nothing. -/
theorem C1_cycle_silent_vs_error :
    rC1cex.execution_order .Update = [1, 0] ∧
    rC1cex.run_phase_trace .Update = [1, 0] ∧
    resolveOpt oC1cex = Except.error "システム依存関係の循環が検出されました: a" ∧
    updateAllOpt oC1cex = Except.error "システム依存関係の循環が検出されました: a" := by
  refine ⟨by decide, by decide, rfl, rfl⟩

/-- C2 counterexample: with a resource of type 0 stored, get_multi with the
same type twice returns the pair, not nothing - the identical-type check
exists only in get_multi_mut. -/
theorem C2_counterexample :
    ((ResourceManager.new Nat).insert 0 42).get_multi 0 0 = some (42, 42) ∧
    ¬ ((ResourceManager.new Nat).insert 0 42).get_multi 0 0 = none := by
  exact ⟨rfl, by decide⟩

/-- C2 amended: get_multi_mut of a repeated type always returns nothing, for
every manager and type; get_multi performs no such check and returns the
stored value twice whenever it is present. -/
theorem C2_same_type_behavior :
    (∀ (V : Type) (rm : ResourceManager V) (t : Nat), rm.get_multi_mut t t = none) ∧
    (∀ (V : Type) (rm : ResourceManager V) (t : Nat) (v : V), rm.get t = some v →
      rm.get_multi t t = some (v, v)) := by
  constructor
  · intro V rm t
    unfold ResourceManager.get_multi_mut
    rw [if_pos rfl]
  · intro V rm t v h
    unfold ResourceManager.get_multi
    rw [h]

/-- C2 witness: the amended statement evaluated on a concrete store. -/
theorem C2_same_type_behavior_witness :
    (ResourceManager.new Nat).get_multi_mut 0 0 = none ∧
    ((ResourceManager.new Nat).insert 0 42).get_multi 0 0 = some (42, 42) :=
  ⟨C2_same_type_behavior.1 Nat (ResourceManager.new Nat) 0,
   C2_same_type_behavior.2 Nat ((ResourceManager.new Nat).insert 0 42) 0 42 (by decide)⟩

/-- C3: for every registry whose dependency graph is acyclic and every phase,
the computed execution order places every listed system after each of its
direct and transitive dependencies, which also appear in the order. -/
theorem C3_topological_order (r : SystemRegistry) (ph : SystemPhase)
    (hacyc : ∀ x, ¬ Relation.TransGen (depRel r.depsFun) x x) :
    ∀ x ∈ r.execution_order ph, ∀ d,
      Relation.TransGen (depRel r.depsFun) d x →
      d ∈ r.execution_order ph ∧
        listPos (r.execution_order ph) d < listPos (r.execution_order ph) x := by
  intro x hx d hd
  exact topo_transGen (execution_order_props r ph hacyc).1 hd hx

/-- C3 witness: on a registry where system 1 depends on system 0, the
dependency is placed earlier in the Update-phase order. -/
theorem C3_topological_order_witness :
    0 ∈ rC3w.execution_order .Update ∧
      listPos (rC3w.execution_order .Update) 0 <
        listPos (rC3w.execution_order .Update) 1 :=
  C3_topological_order rC3w .Update (acyclic_of_desc rC3w (by decide)) 1 (by decide)
    0 (Relation.TransGen.single (show (0 : Nat) ∈ rC3w.depsFun 1 by decide))

/-- C4: over every sequence of create, deferred remove, immediate remove and
flush operations from a fresh manager, the active-entity key set stays
duplicate-free and the next create_entity returns an id that is not currently
active. -/
theorem C4_id_uniqueness : ∀ (V : Type) (ops : List EMOp),
    (keys (EMrun ops (EntityManager.new V)).entities).Nodup ∧
    (EMrun ops (EntityManager.new V)).create_entity.1 ∉
      keys (EMrun ops (EntityManager.new V)).entities := by
  intro V ops
  have h := EMrun_preserve ops (INV_new V)
  exact ⟨h.1, (create_preserve h).2⟩

/-- C7: the claim says the World add-then-get round trip returns the stored
value. Evaluated at a fresh World after a successful add of value 42 under
type 5 on entity 1: World::get_component is a stub that returns none
unconditionally (src/ecs/world.rs lines 212-215, under a TODO claiming the
EntityManager lacks the method), while EntityManager::get_component, which
does exist (src/entities/entity_manager.rs lines 503-509), returns the value. -/
theorem C7_world_get_component_stub :
    (((World.new Nat).create_entity.2.add_component compDepsNone 1 5 42).get_component
      1 5 = none) ∧
    (((World.new Nat).create_entity.2.add_component compDepsNone 1 5
      42).entity_manager.get_component 1 5 = some 42) := by
  exact ⟨rfl, by decide⟩

/-- C10: every id handed out by create_entity across any operation sequence
is at least 1 (0 is reserved invalid), and every id on the recycle list is at
least 1. -/
theorem C10_nonzero_ids : ∀ (V : Type) (ops : List EMOp),
    1 ≤ (EMrun ops (EntityManager.new V)).create_entity.1 ∧
    ∀ id ∈ (EMrun ops (EntityManager.new V)).id_generator.recycled_ids, 1 ≤ id := by
  intro V ops
  obtain ⟨hN, hRN, h1n, hEb, hRb, hDis⟩ := EMrun_preserve ops (INV_new V)
  constructor
  · show 1 ≤ ((EMrun ops (EntityManager.new V)).id_generator.generate).1
    rcases generate_cases (EMrun ops (EntityManager.new V)).id_generator with
      ⟨hid, _⟩ | ⟨hu, rest, hr, _⟩
    · rw [hid]
      exact h1n
    · exact (hRb _ (hr ▸ List.mem_cons_self _ _)).1
  · exact fun id hid => (hRb id hid).1

/-- C10 witness: evaluated after a create followed by an immediate removal,
both the next fresh id and the recycled id 1 are nonzero. -/
theorem C10_nonzero_ids_witness :
    1 ≤ (EMrun [EMOp.create, EMOp.removeImmediate 1]
      (EntityManager.new Nat)).create_entity.1 ∧
    (1 : Nat) ≤ 1 :=
  ⟨(C10_nonzero_ids Nat [EMOp.create, EMOp.removeImmediate 1]).1,
   (C10_nonzero_ids Nat [EMOp.create, EMOp.removeImmediate 1]).2 1 (by decide)⟩
/-- C5: for an active id, after a deferred remove_entity followed by
flush_removals the freed id sits on the recycle list - and so is what the
next create_entity pops - if and only if recycling is enabled; and with
recycling disabled an issued id is never returned by create_entity again,
whatever operations run in between. -/
theorem C5_recycling (V : Type) (em : EntityManager V) (id : Nat)
    (hinv : INV em) :
    (id ∈ keys em.entities →
      (id ∈ ((em.remove_entity id).flush_removals).id_generator.recycled_ids ↔
        em.id_generator.use_recycled = true)) ∧
    (em.id_generator.use_recycled = false → ∀ ops : List EMOp,
      (EMrun ops em.create_entity.2).create_entity.1 ≠ em.create_entity.1) := by
  obtain ⟨hN, hRN, h1n, hEb, hRb, hDis⟩ := hinv
  constructor
  · intro hid
    cases ha : aget em.entities id with
    | none => exact absurd hid (aget_none_iff.1 ha)
    | some e =>
      constructor
      · intro hrec
        by_contra hflag
        rw [Bool.not_eq_true] at hflag
        rw [@flush_gen_off V (em.remove_entity id) hflag] at hrec
        exact hDis id hid hrec
      · intro hflag
        exact @flush_recycles V (em.remove_entity id) id e
          (mem_sinsert.2 (Or.inl rfl)) ha hflag
  · intro hoff ops
    have h1 := create_off hoff
    have hflag1 : em.create_entity.2.id_generator.use_recycled = false :=
      (generate_flag em.id_generator).trans hoff
    have hflag2 : (EMrun ops em.create_entity.2).id_generator.use_recycled = false :=
      (EMrun_flag ops _).trans hflag1
    have h2 := create_off hflag2
    have hmono := EMrun_next_mono ops em.create_entity.2
    rw [h1.1, h2.1]
    rw [h1.2] at hmono
    omega

/-- C5 witness: on a one-entity manager with recycling on, the removed and
flushed id 1 is recycled; on a recycling-off manager, the id issued by one
create differs from the next. -/
theorem C5_recycling_witness :
    (1 ∈ ((emC5a.remove_entity 1).flush_removals).id_generator.recycled_ids ↔
      emC5a.id_generator.use_recycled = true) ∧
    (EMrun [] emC5b.create_entity.2).create_entity.1 ≠ emC5b.create_entity.1 :=
  ⟨(C5_recycling Nat emC5a 1 (by unfold INV; decide)).1 (by decide),
   (C5_recycling Nat emC5b 0 (by unfold INV; decide)).2 (by decide) []⟩

/-- C8: after a successful add_component, a deferred remove_entity changes
only the pending-removal set and the component stays readable; after
flush_removals the component read returns nothing, the id is scrubbed from
every component index and tag set, and with recycling on the id is on the
recycle list. -/
theorem C8_deferred_removal (V : Type) (cd : Nat → List Nat)
    (em : EntityManager V) (id t : Nat) (v : V)
    (hsucc : (em.add_component cd id t v).2 = none)
    (htag : ∀ p ∈ em.tags_to_entities, id ∉ p.2) :
    ((em.add_component cd id t v).1.remove_entity id).get_component id t = some v ∧
    ((em.add_component cd id t v).1.remove_entity id).entities =
      (em.add_component cd id t v).1.entities ∧
    ((em.add_component cd id t v).1.remove_entity id).tags_to_entities =
      (em.add_component cd id t v).1.tags_to_entities ∧
    ((em.add_component cd id t v).1.remove_entity id).component_indices =
      (em.add_component cd id t v).1.component_indices ∧
    ((em.add_component cd id t v).1.remove_entity id).id_generator =
      (em.add_component cd id t v).1.id_generator ∧
    (((em.add_component cd id t v).1.remove_entity id).flush_removals).get_component
      id t = none ∧
    (∀ p ∈ (((em.add_component cd id t v).1.remove_entity
      id).flush_removals).component_indices, id ∉ p.2) ∧
    (∀ p ∈ (((em.add_component cd id t v).1.remove_entity
      id).flush_removals).tags_to_entities, id ∉ p.2) ∧
    (em.id_generator.use_recycled = true →
      id ∈ (((em.add_component cd id t v).1.remove_entity
        id).flush_removals).id_generator.recycled_ids) := by
  have hget := add_component_get hsucc
  have hfields := add_component_fields hsucc
  rcases add_component_active hsucc with ⟨e2, hact⟩
  have hpend : id ∈ ((em.add_component cd id t v).1.remove_entity id).pending_removal :=
    mem_sinsert.2 (Or.inl rfl)
  refine ⟨?_, rfl, rfl, rfl, rfl, ?_, ?_, ?_, ?_⟩
  · rw [get_component_eq] at hget ⊢
    exact hget
  · exact flush_get_component_none t hpend
  · exact flush_scrub_index hpend hact
  · refine flush_tag_free ?_
    show ∀ p ∈ (em.add_component cd id t v).1.tags_to_entities, id ∉ p.2
    rw [hfields.1]
    exact htag
  · intro hflag
    refine flush_recycles hpend hact ?_
    show ((em.add_component cd id t v).1.remove_entity id).id_generator.use_recycled = true
    have : ((em.add_component cd id t v).1.remove_entity id).id_generator =
        em.id_generator := hfields.2.2
    rw [this]
    exact hflag

/-- C8 witness: the scenario evaluated concretely - entity 1 with component
type 7 and value 99; the value survives the deferred removal, vanishes after
the flush, the index entry for type 7 is scrubbed, and id 1 is recycled. -/
theorem C8_deferred_removal_witness :
    ((emC8base.add_component compDepsNone 1 7 99).1.remove_entity 1).get_component
      1 7 = some 99 ∧
    (((emC8base.add_component compDepsNone 1 7 99).1.remove_entity
      1).flush_removals).get_component 1 7 = none ∧
    (1 : Nat) ∉ ((7 : Nat), ([] : List Nat)).2 ∧
    1 ∈ (((emC8base.add_component compDepsNone 1 7 99).1.remove_entity
      1).flush_removals).id_generator.recycled_ids :=
  ⟨(C8_deferred_removal Nat compDepsNone emC8base 1 7 99 (by decide) (by decide)).1,
   (C8_deferred_removal Nat compDepsNone emC8base 1 7 99 (by decide)
     (by decide)).2.2.2.2.2.1,
   (C8_deferred_removal Nat compDepsNone emC8base 1 7 99 (by decide)
     (by decide)).2.2.2.2.2.2.1 (7, []) (by decide),
   (C8_deferred_removal Nat compDepsNone emC8base 1 7 99 (by decide)
     (by decide)).2.2.2.2.2.2.2.2 (by decide)⟩
/-- C6 counterexample: with Update-phase system 0 and Input-phase system 1
that depends on it, run_all_phases produces the trace [0, 1, 0]: the
Update-phase system 0 is hoisted into the Input phase's order and runs before
the Input-phase system 1 completes (and runs again in its own phase), so the
claimed phase separation fails for this registration. -/
theorem C6_counterexample :
    rC6cex.phase_of 0 = some SystemPhase.Update ∧
    rC6cex.phase_of 1 = some SystemPhase.Input ∧
    rC6cex.run_all_phases_trace = [0, 1, 0] ∧
    ¬ PhaseSeparated rC6cex := by
  refine ⟨by decide, by decide, by decide, ?_⟩
  unfold PhaseSeparated
  decide

/-- C6 amended: run_all_phases always runs the phase lists in the fixed order
Input, Update, Render, Cleanup, and run_startup runs only the Startup list;
provided every registered dependency refers to a registered system of the
same phase, each phase's trace contains only that phase's systems, no
Startup-phase system appears inside run_all_phases, and the phase labels
along the whole trace are monotone. -/
theorem C6_phase_separation (r : SystemRegistry)
    (hA : ∀ e ∈ r.phase_systems, ∀ q ∈ e.2, r.phase_of q.1 = some e.1)
    (hB : ∀ p ∈ r.dependencies, ∀ d ∈ p.2, r.phase_of d = r.phase_of p.1) :
    (∀ ph, ∀ id ∈ r.run_phase_trace ph, r.phase_of id = some ph) ∧
    r.run_all_phases_trace = r.run_phase_trace .Input ++ r.run_phase_trace .Update ++
      r.run_phase_trace .Render ++ r.run_phase_trace .Cleanup ∧
    (∀ id ∈ r.run_all_phases_trace, r.phase_of id ≠ some SystemPhase.Startup) ∧
    r.run_startup_trace = r.run_phase_trace .Startup ∧
    PhaseSeparated r := by
  have hph : ∀ ph, ∀ id ∈ r.run_phase_trace ph, r.phase_of id = some ph :=
    fun ph => run_phase_trace_phase r ph hA hB
  have hseg : ∀ ph, ∀ x ∈ (r.run_phase_trace ph).filterMap r.phase_of, x = ph :=
    fun ph => filterMap_phase_const r ph (hph ph)
  have hpw : ∀ ph, ((r.run_phase_trace ph).filterMap r.phase_of).Pairwise
      (fun a b => phaseIdx a ≤ phaseIdx b) :=
    fun ph => pairwise_all _ (fun a ha b hb => by
      rw [hseg ph a ha, hseg ph b hb])
  refine ⟨hph, rfl, ?_, rfl, ?_⟩
  · intro id hid
    unfold SystemRegistry.run_all_phases_trace at hid
    rcases List.mem_append.1 hid with hid | hid
    · rcases List.mem_append.1 hid with hid | hid
      · rcases List.mem_append.1 hid with hid | hid
        · rw [hph _ id hid]; simp
        · rw [hph _ id hid]; simp
      · rw [hph _ id hid]; simp
    · rw [hph _ id hid]; simp
  · unfold PhaseSeparated SystemRegistry.run_all_phases_trace
    rw [List.filterMap_append, List.filterMap_append, List.filterMap_append]
    rw [List.pairwise_append]
    refine ⟨?_, hpw _, ?_⟩
    · rw [List.pairwise_append]
      refine ⟨?_, hpw _, ?_⟩
      · rw [List.pairwise_append]
        refine ⟨hpw _, hpw _, ?_⟩
        · intro a ha b hb
          rw [hseg _ a ha, hseg _ b hb]
          decide
      · intro a ha b hb
        rcases List.mem_append.1 ha with ha | ha
        · rw [hseg _ a ha, hseg _ b hb]; decide
        · rw [hseg _ a ha, hseg _ b hb]; decide
    · intro a ha b hb
      rcases List.mem_append.1 ha with ha | ha
      · rcases List.mem_append.1 ha with ha | ha
        · rw [hseg _ a ha, hseg _ b hb]; decide
        · rw [hseg _ a ha, hseg _ b hb]; decide
      · rw [hseg _ a ha, hseg _ b hb]; decide

/-- C6 witness: a registry whose dependencies stay inside their phase - the
Update-phase member of its trace is Update-registered and the trace's phase
labels are monotone. -/
theorem C6_phase_separation_witness :
    rC6w.phase_of 2 = some SystemPhase.Update ∧ PhaseSeparated rC6w :=
  ⟨(C6_phase_separation rC6w (by decide) (by decide)).1 .Update 2 (by decide),
   (C6_phase_separation rC6w (by decide) (by decide)).2.2.2.2⟩

/-- C9 counterexample: in a single Update phase, systems 0 (priority 10) and
1 (priority 5) have no dependency ordering between them in either direction,
yet the computed order [0, 2, 1] runs 0 before 1 because system 2 (priority
0) depends on 0 and hoists it to the front - the lower-priority-value system
does not run first. -/
theorem C9_counterexample :
    rC9cex.phase_of 0 = some SystemPhase.Update ∧
    rC9cex.phase_of 1 = some SystemPhase.Update ∧
    (aget rC9cex.systems 0).map SystemDecl.priority = some 10 ∧
    (aget rC9cex.systems 1).map SystemDecl.priority = some 5 ∧
    ¬ Relation.TransGen (depRel rC9cex.depsFun) 1 0 ∧
    ¬ Relation.TransGen (depRel rC9cex.depsFun) 0 1 ∧
    rC9cex.execution_order .Update = [0, 2, 1] ∧
    listPos (rC9cex.execution_order .Update) 0 <
      listPos (rC9cex.execution_order .Update) 1 := by
  refine ⟨by decide, by decide, by decide, by decide, ?_, ?_, by decide, by decide⟩
  · exact transGen_no_deps (by decide) 1
  · exact transGen_no_deps (by decide) 0

/-- C9 amended: a dependency edge always takes precedence - in an acyclic
registry every direct dependency of a listed system appears earlier in the
phase order; priority only orders the depth-first roots: the sort is by
priority ascending and stable (ties keep registration order), and in a phase
with no declared dependencies the execution order is exactly the
priority-sorted registration list; with dependencies present a
dependency-unordered pair may run in either order. -/
theorem C9_priority_and_edges :
    (∀ (r : SystemRegistry) (ph : SystemPhase),
      (∀ x, ¬ Relation.TransGen (depRel r.depsFun) x x) →
      ∀ x ∈ r.execution_order ph, ∀ d ∈ r.depsFun x,
        d ∈ r.execution_order ph ∧
          listPos (r.execution_order ph) d < listPos (r.execution_order ph) x) ∧
    (∀ l : List (Nat × Int),
      List.Pairwise (fun a b : Nat × Int => a.2 ≤ b.2) (sortByPriority l)) ∧
    (∀ (a b : Nat × Int) (l : List (Nat × Int)),
      [a, b].Sublist l → a.2 ≤ b.2 → [a, b].Sublist (sortByPriority l)) ∧
    (∀ (r : SystemRegistry) (ph : SystemPhase),
      (∀ p ∈ r.dependencies, p.2 = []) →
      (((aget r.phase_systems ph).getD []).map Prod.fst).Nodup →
      r.execution_order ph =
        (sortByPriority ((aget r.phase_systems ph).getD [])).map Prod.fst) := by
  refine ⟨?_, sortByPriority_sorted, ?_, ?_⟩
  · intro r ph hacyc x hx d hd
    exact (execution_order_props r ph hacyc).1 x hx d hd
  · intro a b l hsub hle
    exact sortByPriority_stable hle hsub
  · intro r ph hnd hnodup
    exact nodeps_execution_order r hnd ph hnodup

/-- C9 witness: the edge in rC9e puts the dependency first; the priority sort
is evaluated sorted and stable on concrete lists; the dependency-free
registry's order is exactly its priority-sorted list. -/
theorem C9_priority_and_edges_witness :
    (0 ∈ rC9e.execution_order .Update ∧
      listPos (rC9e.execution_order .Update) 0 <
        listPos (rC9e.execution_order .Update) 1) ∧
    List.Pairwise (fun a b : Nat × Int => a.2 ≤ b.2)
      (sortByPriority [((0 : Nat), (3 : Int)), (1, 1)]) ∧
    [((5 : Nat), (1 : Int)), (6, 2)].Sublist (sortByPriority [(5, 1), (9, 0), (6, 2)]) ∧
    rC9w.execution_order .Update =
      (sortByPriority ((aget rC9w.phase_systems .Update).getD [])).map Prod.fst :=
  ⟨C9_priority_and_edges.1 rC9e .Update (acyclic_of_desc rC9e (by decide)) 1
      (by decide) 0 (by decide),
   C9_priority_and_edges.2.1 _,
   C9_priority_and_edges.2.2.1 _ _ _ (by decide) (by decide),
   C9_priority_and_edges.2.2.2 rC9w .Update (by decide) (by decide)⟩
end ECS
